import Mathlib

/-!
Shallow embedding of the battleship game engine in `game.py`.

The Python classes `Point`, `Ship`, `Board`, the exception hierarchy
`BoardException` / `BoardOutException` / `BoardUsedException` /
`BoardWrongShipException`, the players (`Player.move`, `AI.ask`,
`User.ask`) and the match orchestration (`Game.try_board`,
`Game.random_board`, `Game.loop`) are translated to Lean definitions.
Mutating methods become functions `Board → args → Board × Except BoardException ret`,
raising an exception becomes returning `Except.error` together with the
state at the raise site (all raises in the source happen before any
mutation of the receiver).  The 2D `field` array is modelled as a total
function `Point → Cell`; every write in the source is guarded by an
in-bounds check, so the function model coincides with the array.
Randomness (`random.randint`) is modelled by explicit streams of draws,
with `Fin`-typed components carrying the range contract of `randint`.
Unbounded input/retry loops (`Player.move`, `AI.ask`, `random_board`)
consume explicit finite lists / fuel, returning `Option` on exhaustion.
-/

/-- `Point` from `game.py`: integer coordinates, structural equality. -/
structure Point where
  x : Int
  y : Int
deriving DecidableEq

/-- `Ship` from `game.py`: bow point, length, direction (0 horizontal,
1 vertical) and remaining lives.  `lives` is an `Int` because the Python
attribute is an unbounded integer that is decremented with `-= 1`. -/
structure Ship where
  bow : Point
  length : Nat
  direction : Nat
  lives : Int
deriving DecidableEq

/-- `Ship.__init__`: lives are initialized to the length. -/
def mkShip (bow : Point) (length : Nat) (direction : Nat) : Ship :=
  { bow := bow, length := length, direction := direction, lives := (length : Int) }

/-- `Ship.points`: the cells occupied by the ship.  In the source,
`cur_x = bow.x + i * (direction == 1)` and `cur_y = bow.y + i * (direction == 0)`
with the booleans coerced to 0/1. -/
def Ship.points (s : Ship) : List Point :=
  (List.range s.length).map fun (i : Nat) =>
    { x := s.bow.x + (i : Int) * (if s.direction = 1 then 1 else 0),
      y := s.bow.y + (i : Int) * (if s.direction = 0 then 1 else 0) }

/-- `Ship.hit`: membership of the shot in the ship's points. -/
def Ship.hit (s : Ship) (shot : Point) : Bool :=
  decide (shot ∈ s.points)

/-- The cell states stored in `Board.field`: `"O"`, `"■"`, `"X"`, `"T"`, `"."`. -/
inductive Cell where
  | empty
  | ship
  | hitMark
  | missMark
  | dot
deriving DecidableEq

/-- The `BoardException` hierarchy: `BoardOutException`,
`BoardUsedException` and `BoardWrongShipException` are the three
concrete exception classes raised by the engine. -/
inductive BoardException where
  | out
  | used
  | wrongShip
deriving DecidableEq

instance {ε α : Type} [DecidableEq ε] [DecidableEq α] : DecidableEq (Except ε α) :=
  fun a b =>
    match a, b with
    | Except.ok x, Except.ok y =>
      if h : x = y then isTrue (by rw [h]) else isFalse (by simp [h])
    | Except.error x, Except.error y =>
      if h : x = y then isTrue (by rw [h]) else isFalse (by simp [h])
    | Except.ok _, Except.error _ => isFalse (by simp)
    | Except.error _, Except.ok _ => isFalse (by simp)

/-- `Board` from `game.py`.  `field` models the `size × size` array of
cell-state strings (all writes in the source are in-bounds, see module
docstring); `busy`, `ships`, `shots` are the Python lists. -/
structure Board where
  size : Nat
  field : Point → Cell
  busy : List Point
  ships : List Ship
  shots : List Point
  hidden : Bool

/-- `Board.__init__`. -/
def mkBoard (size : Nat) (hidden : Bool) : Board :=
  { size := size, field := fun _ => Cell.empty, busy := [], ships := [],
    shots := [], hidden := hidden }

/-- `Board.out`: whether a point lies outside `[0,size) × [0,size)`. -/
def Board.out (b : Board) (p : Point) : Bool :=
  ! (decide (0 ≤ p.x ∧ p.x < (b.size : Int) ∧ 0 ≤ p.y ∧ p.y < (b.size : Int)))

/-- The 9 neighbor offsets used by `Board.contour` (the `near` list in the
source; note it contains `(0, 0)`, the cell itself). -/
def near : List (Int × Int) :=
  [(-1, -1), (-1, 0), (-1, 1), (0, -1), (0, 0), (0, 1), (1, -1), (1, 0), (1, 1)]

/-- Inner loop of `Board.contour`: for one ship point `p`, walk the `near`
offsets; each in-bounds offset cell not yet in `busy` is appended to `busy`
and, when `verb` is set, its field cell is overwritten with `"."`. -/
def contourNear (b : Board) (p : Point) (verb : Bool) : List (Int × Int) → Board
  | [] => b
  | d :: ds =>
    let cur : Point := { x := p.x + d.1, y := p.y + d.2 }
    if b.out cur = false ∧ cur ∉ b.busy then
      contourNear
        { b with
          field := if verb then Function.update b.field cur Cell.dot else b.field,
          busy := b.busy ++ [cur] } p verb ds
    else
      contourNear b p verb ds

/-- Outer loop of `Board.contour` over the ship's points. -/
def contourPoints (b : Board) (verb : Bool) : List Point → Board
  | [] => b
  | p :: ps => contourPoints (contourNear b p verb near) verb ps

/-- `Board.contour`. -/
def Board.contour (b : Board) (ship : Ship) (verb : Bool) : Board :=
  contourPoints b verb ship.points

/-- `Board.add_ship`: first every ship point is checked (out of bounds or
already busy raises `BoardWrongShipException` before any mutation), then
every point is marked `"■"` and appended to `busy`, the ship is appended
to `ships` and the contour is added to `busy` (with `verb = False`). -/
def Board.add_ship (b : Board) (ship : Ship) : Board × Except BoardException Unit :=
  if ship.points.any (fun p => b.out p || decide (p ∈ b.busy)) then
    (b, Except.error BoardException.wrongShip)
  else
    let b1 := ship.points.foldl
      (fun acc p =>
        { acc with field := Function.update acc.field p Cell.ship,
                   busy := acc.busy ++ [p] }) b
    let b2 := { b1 with ships := b1.ships ++ [ship] }
    (b2.contour ship false, Except.ok ())

/-- The `for ship in self.ships: if ship.hit(p)` scan inside `Board.shot`:
the first ship containing `p` gets its lives decremented; later ships are
not examined.  Returns the updated ship list and the updated hit ship. -/
def hitScan (p : Point) : List Ship → Option (List Ship × Ship)
  | [] => none
  | s :: rest =>
    if s.hit p then
      let s' := { s with lives := s.lives - 1 }
      some (s' :: rest, s')
    else
      match hitScan p rest with
      | none => none
      | some (rest', hs) => some (s :: rest', hs)

/-- `Board.shot`: raises `BoardOutException` for an out-of-bounds point and
`BoardUsedException` for a repeated point (both before any mutation),
otherwise appends the point to `shots`; a hit decrements the first
matching ship's lives and marks `"X"`, and when the lives reach 0 the
destroyed ship's contour is drawn with `verb = True`; a miss marks `"T"`. -/
def Board.shot (b : Board) (p : Point) : Board × Except BoardException Bool :=
  if b.out p then (b, Except.error BoardException.out)
  else if p ∈ b.shots then (b, Except.error BoardException.used)
  else
    let b1 := { b with shots := b.shots ++ [p] }
    match hitScan p b1.ships with
    | some (ships', s') =>
      let b2 := { b1 with ships := ships',
                          field := Function.update b1.field p Cell.hitMark }
      if s'.lives = 0 then (b2.contour s' true, Except.ok true)
      else (b2, Except.ok true)
    | none =>
      ({ b1 with field := Function.update b1.field p Cell.missMark }, Except.ok false)

/-- `Board.begin`: reset the `busy` list after placement. -/
def Board.begin (b : Board) : Board :=
  { b with busy := [] }

/-- `Board.defeat`: all ships have 0 lives. -/
def Board.defeat (b : Board) : Bool :=
  b.ships.all fun s => decide (s.lives = 0)

/-- A sequence of `Board.shot` calls made by callers that catch
`BoardException` (each call leaves the board unchanged when it raises). -/
def runShots (b : Board) : List Point → Board
  | [] => b
  | p :: ps => runShots (b.shot p).1 ps

/-- Chebyshev adjacency (distance at most 1 in each coordinate, including
the cell itself): exactly the cells reached by the `near` offsets. -/
def adjacent (q p : Point) : Prop :=
  (q.x - p.x).natAbs ≤ 1 ∧ (q.y - p.y).natAbs ≤ 1

instance (q p : Point) : Decidable (adjacent q p) := by
  unfold adjacent
  infer_instance

/-- `Player.move` from `game.py`: repeatedly ask for a target and shoot the
enemy board, catching `BoardException` and asking again; returns the shot
result (`repeat`) on the first successful shot.  The unbounded
ask-loop is modelled by consuming a finite list of candidate targets,
returning `none` when it is exhausted. -/
def Player.move (enemy : Board) : List Point → Option (Board × Bool)
  | [] => none
  | t :: ts =>
    match enemy.shot t with
    | (b', Except.ok r) => some (b', r)
    | (b', Except.error _) => Player.move b' ts

/-- `AI.ask` from `game.py`: draw points `Point(randint(0, 5), randint(0, 5))`
until one is found that is not in the enemy's `shots`.  The random stream
is indexed by draw number; `Fin 6` carries the contract of
`random.randint(0, 5)` (note the hardcoded 5, independent of the board
size).  `fuel` bounds the modelled retry loop. -/
def AI.askLoop (enemy : Board) (stream : Nat → Fin 6 × Fin 6) : Nat → Nat → Option Point
  | 0, _ => none
  | fuel + 1, k =>
    let p : Point := { x := ((stream k).1 : Nat), y := ((stream k).2 : Nat) }
    if p ∈ enemy.shots then AI.askLoop enemy stream fuel (k + 1) else some p

/-- `AI.ask`, starting the draw loop at draw index 0. -/
def AI.ask (enemy : Board) (stream : Nat → Fin 6 × Fin 6) (fuel : Nat) : Option Point :=
  AI.askLoop enemy stream fuel 0

/-- Python `str.isdigit` restricted to ASCII: nonempty and all digits. -/
def isdigitStr (s : String) : Bool :=
  s.length != 0 && s.toList.all Char.isDigit

/-- Python `int()` on a digit string. -/
def strToNat (s : String) : Nat :=
  s.toList.foldl (fun n c => 10 * n + (c.toNat - 48)) 0

/-- One iteration of `User.ask` from `game.py`, applied to the
whitespace-split tokens of one input line: `none` models the re-prompt
(wrong token count or non-digit token), otherwise the 1-based input is
converted to a 0-based `Point` with no bounds check. -/
def User.ask (tokens : List String) : Option Point :=
  match tokens with
  | [x, y] =>
    if isdigitStr x && isdigitStr y then
      some { x := (strToNat x : Int) - 1, y := (strToNat y : Int) - 1 }
    else none
  | _ => none

/-- The winner announced by `Game.loop`. -/
inductive Winner where
  | user
  | comp
deriving DecidableEq

/-- The state carried between iterations of `Game.loop`: the user's board
(`pl`), the computer's board (`co`) and the move counter `num`. -/
structure GameSt where
  us : Board
  ai : Board
  num : Int

/-- One iteration of `Game.loop`: the side given by `num % 2` moves
(the user shoots the computer's board, the computer shoots the user's),
a hit decrements `num`, then the defeat checks run (computer's board
first) and `num` is incremented when no one has won.  The returned
triple is (new state, winner if the loop broke, the move's repeat flag);
`none` models the mover's ask-loop running out of targets. -/
def GameSt.loopStep (st : GameSt) (targets : List Point) :
    Option (GameSt × Option Winner × Bool) :=
  if st.num % 2 = 0 then
    match Player.move st.ai targets with
    | none => none
    | some (ai', rep) =>
      let num1 := if rep then st.num - 1 else st.num
      if ai'.defeat then some ({ st with ai := ai', num := num1 }, some Winner.user, rep)
      else if st.us.defeat then some ({ st with ai := ai', num := num1 }, some Winner.comp, rep)
      else some ({ st with ai := ai', num := num1 + 1 }, none, rep)
  else
    match Player.move st.us targets with
    | none => none
    | some (us', rep) =>
      let num1 := if rep then st.num - 1 else st.num
      if st.ai.defeat then some ({ st with us := us', num := num1 }, some Winner.user, rep)
      else if us'.defeat then some ({ st with us := us', num := num1 }, some Winner.comp, rep)
      else some ({ st with us := us', num := num1 + 1 }, none, rep)

/-- A stream of placement draws for `Game.try_board`: attempt number `a`
draws a bow point (`randint(0, size-1)` twice) and a direction
(`randint(0, 1)`, carried by `Fin 2`). -/
abbrev DrawStream := Nat → Point × Fin 2

/-- The inner `while True` of `Game.try_board` for one ship length `l`:
increment the shared attempt counter, give up (return `None`) once it
exceeds 2000, otherwise draw a ship and try `add_ship`, retrying on
`BoardWrongShipException`.  `gas` is recursion fuel; called with
`gas = 2001` the `2000 < a` check always fires before the fuel runs out. -/
def placeLoop (stream : DrawStream) (l : Nat) : Nat → Board → Nat → Option (Board × Nat)
  | 0, _, _ => none
  | gas + 1, board, attempts =>
    let a := attempts + 1
    if 2000 < a then none
    else
      let dr := stream a
      let ship := mkShip dr.1 l dr.2.val
      match board.add_ship ship with
      | (b2, Except.ok _) => some (b2, a)
      | (b2, Except.error _) => placeLoop stream l gas b2 a

/-- The `for l in lens` of `Game.try_board`, threading the board and the
shared attempt counter through the per-length placement loops. -/
def fleetLoop (stream : DrawStream) : List Nat → Board → Nat → Option (Board × Nat)
  | [], board, attempts => some (board, attempts)
  | l :: ls, board, attempts =>
    match placeLoop stream l 2001 board attempts with
    | none => none
    | some (b2, a2) => fleetLoop stream ls b2 a2

/-- The fixed fleet lengths of `Game.try_board`. -/
def lens : List Nat := [3, 2, 2, 1, 1, 1, 1]

/-- `Game.try_board`: place the fixed fleet on a fresh board with a shared
2000-attempt budget, then clear `busy` with `Board.begin`. -/
def tryBoard (size : Nat) (stream : DrawStream) : Option Board :=
  match fleetLoop stream lens (mkBoard size false) 0 with
  | none => none
  | some (b, _) => some b.begin

/-- `Game.random_board`: retry `try_board` until it succeeds.  The
unbounded `while board is None` is modelled by consuming a finite list of
draw streams, one per `try_board` call. -/
def randomBoard (size : Nat) : List DrawStream → Option Board
  | [] => none
  | s :: rest =>
    match tryBoard size s with
    | some b => some b
    | none => randomBoard size rest

/-! ### Basic lemmas about ship geometry -/

theorem points_length (s : Ship) : s.points.length = s.length := by
  unfold Ship.points
  rw [List.length_map, List.length_range]

theorem points_getElem (s : Ship) (i : Nat) (h : i < s.points.length) :
    s.points[i] =
      { x := s.bow.x + (i : Int) * (if s.direction = 1 then 1 else 0),
        y := s.bow.y + (i : Int) * (if s.direction = 0 then 1 else 0) } := by
  have h' : i < (List.range s.length).length := by
    rw [List.length_range]
    rw [points_length] at h
    exact h
  show ((List.range s.length).map _)[i] = _
  rw [List.getElem_map, List.getElem_range]

theorem mem_points (s : Ship) (p : Point) :
    p ∈ s.points ↔ ∃ i < s.length,
      p = { x := s.bow.x + (i : Int) * (if s.direction = 1 then 1 else 0),
            y := s.bow.y + (i : Int) * (if s.direction = 0 then 1 else 0) } := by
  unfold Ship.points
  rw [List.mem_map]
  constructor
  · rintro ⟨i, hi, rfl⟩
    rw [List.mem_range] at hi
    exact ⟨i, hi, rfl⟩
  · rintro ⟨i, hi, rfl⟩
    exact ⟨i, List.mem_range.mpr hi, rfl⟩

theorem points_lives (s : Ship) (v : Int) : ({ s with lives := v } : Ship).points = s.points := rfl

theorem points_nodup (s : Ship) (hd : s.direction = 0 ∨ s.direction = 1) :
    s.points.Nodup := by
  unfold Ship.points
  refine List.Nodup.map ?_ (List.nodup_range _)
  intro i j hij
  rw [Point.mk.injEq] at hij
  rcases hd with h | h <;> rw [h] at hij <;>
    simp only [reduceIte, mul_one, mul_zero, add_right_inj,
      Nat.cast_inj, one_ne_zero] at hij <;> omega

theorem mkShip_lives (bow : Point) (l d : Nat) : (mkShip bow l d).lives = (l : Int) := rfl

/-! ### Adjacency and the `near` offsets -/

theorem adjacent_refl (p : Point) : adjacent p p := by
  constructor <;> simp

theorem adjacent_symm {q p : Point} (h : adjacent q p) : adjacent p q := by
  obtain ⟨h1, h2⟩ := h
  constructor <;> omega

theorem adjacent_iff_near (q p : Point) :
    adjacent q p ↔ ∃ d ∈ near, q = { x := p.x + d.1, y := p.y + d.2 } := by
  constructor
  · rintro ⟨hx, hy⟩
    refine ⟨(q.x - p.x, q.y - p.y), ?_, ?_⟩
    · have h1 : q.x - p.x = -1 ∨ q.x - p.x = 0 ∨ q.x - p.x = 1 := by omega
      have h2 : q.y - p.y = -1 ∨ q.y - p.y = 0 ∨ q.y - p.y = 1 := by omega
      rcases h1 with h1 | h1 | h1 <;> rcases h2 with h2 | h2 | h2 <;>
        rw [h1, h2] <;> decide
    · cases q
      cases p
      simp only [Point.mk.injEq]
      omega
  · rintro ⟨d, hd, rfl⟩
    have hd' : (d.1 = -1 ∨ d.1 = 0 ∨ d.1 = 1) ∧ (d.2 = -1 ∨ d.2 = 0 ∨ d.2 = 1) := by
      simp only [near, List.mem_cons, List.not_mem_nil, or_false] at hd
      rcases hd with h | h | h | h | h | h | h | h | h <;> rw [h] <;> decide
    constructor <;> simp <;> omega

/-! ### Frame and coverage lemmas for `Board.contour` -/

theorem contourNear_const (p : Point) (v : Bool) (ds : List (Int × Int)) :
    ∀ b : Board, (contourNear b p v ds).size = b.size ∧
      (contourNear b p v ds).ships = b.ships ∧
      (contourNear b p v ds).shots = b.shots := by
  induction ds with
  | nil => intro b; exact ⟨rfl, rfl, rfl⟩
  | cons d ds ih =>
    intro b
    rw [contourNear]
    split
    · exact ih _
    · exact ih b

theorem contourNear_busy_mono (p : Point) (v : Bool) (ds : List (Int × Int)) :
    ∀ (b : Board) (q : Point), q ∈ b.busy → q ∈ (contourNear b p v ds).busy := by
  induction ds with
  | nil => intro b q hq; exact hq
  | cons d ds ih =>
    intro b q hq
    rw [contourNear]
    split
    · exact ih _ q (List.mem_append.mpr (Or.inl hq))
    · exact ih b q hq

theorem contourNear_cover (p : Point) (v : Bool) (ds : List (Int × Int)) :
    ∀ (b : Board) (d : Int × Int), d ∈ ds →
      b.out { x := p.x + d.1, y := p.y + d.2 } = false →
      ({ x := p.x + d.1, y := p.y + d.2 } : Point) ∈ (contourNear b p v ds).busy := by
  induction ds with
  | nil => intro b d hd; exact absurd hd (List.not_mem_nil d)
  | cons d0 ds ih =>
    intro b d hd hout
    rcases List.mem_cons.mp hd with rfl | hd'
    · rw [contourNear]
      split
      · exact contourNear_busy_mono _ _ _ _ _
          (List.mem_append.mpr (Or.inr (List.mem_singleton.mpr rfl)))
      · rename_i h
        have : ({ x := p.x + d.1, y := p.y + d.2 } : Point) ∈ b.busy := by
          by_contra hq
          exact h ⟨hout, hq⟩
        exact contourNear_busy_mono _ _ _ _ _ this
    · rw [contourNear]
      split
      · exact ih _ d hd' hout
      · exact ih b d hd' hout

theorem contourNear_field_busy (p : Point) (v : Bool) (ds : List (Int × Int)) :
    ∀ (b : Board) (q : Point), q ∈ b.busy →
      (contourNear b p v ds).field q = b.field q := by
  induction ds with
  | nil => intro b q _; rfl
  | cons d ds ih =>
    intro b q hq
    rw [contourNear]
    split
    · rename_i h
      have hne : q ≠ ({ x := p.x + d.1, y := p.y + d.2 } : Point) := by
        intro he
        exact h.2 (he ▸ hq)
      rw [ih _ q (List.mem_append.mpr (Or.inl hq))]
      cases v
      · rfl
      · exact Function.update_noteq hne _ _
    · exact ih b q hq

theorem contourNear_frame (p : Point) (v : Bool) (ds : List (Int × Int)) :
    ∀ (b : Board) (q : Point), (∀ d ∈ ds, q ≠ { x := p.x + d.1, y := p.y + d.2 }) →
      (contourNear b p v ds).field q = b.field q ∧
      (q ∈ (contourNear b p v ds).busy ↔ q ∈ b.busy) := by
  induction ds with
  | nil => intro b q _; exact ⟨rfl, Iff.rfl⟩
  | cons d ds ih =>
    intro b q hq
    have hne : q ≠ ({ x := p.x + d.1, y := p.y + d.2 } : Point) :=
      hq d (List.mem_cons_self d ds)
    have hq' : ∀ d' ∈ ds, q ≠ ({ x := p.x + d'.1, y := p.y + d'.2 } : Point) :=
      fun d' hd' => hq d' (List.mem_cons_of_mem d hd')
    rw [contourNear]
    split
    · obtain ⟨hf, hb⟩ := ih _ q hq'
      refine ⟨?_, ?_⟩
      · rw [hf]
        cases v
        · rfl
        · exact Function.update_noteq hne _ _
      · rw [hb]
        simp only [List.mem_append, List.mem_singleton]
        exact or_iff_left hne
    · exact ih b q hq'

theorem contourNear_mark (p : Point) (ds : List (Int × Int)) :
    ∀ (b : Board) (d : Int × Int), d ∈ ds →
      b.out { x := p.x + d.1, y := p.y + d.2 } = false →
      ({ x := p.x + d.1, y := p.y + d.2 } : Point) ∉ b.busy →
      (contourNear b p true ds).field { x := p.x + d.1, y := p.y + d.2 } = Cell.dot ∧
      ({ x := p.x + d.1, y := p.y + d.2 } : Point) ∈ (contourNear b p true ds).busy := by
  induction ds with
  | nil => intro b d hd; exact absurd hd (List.not_mem_nil d)
  | cons d0 ds ih =>
    intro b d hd hout hbusy
    rcases List.mem_cons.mp hd with rfl | hd'
    · rw [contourNear]
      rw [if_pos ⟨hout, hbusy⟩]
      have hmem : ({ x := p.x + d.1, y := p.y + d.2 } : Point) ∈
          b.busy ++ [({ x := p.x + d.1, y := p.y + d.2 } : Point)] :=
        List.mem_append.mpr (Or.inr (List.mem_singleton.mpr rfl))
      refine ⟨?_, contourNear_busy_mono _ _ _ _ _ hmem⟩
      rw [contourNear_field_busy _ _ _ _ _ hmem]
      exact Function.update_same _ _ _
    · by_cases h0 : d0 = d
      · subst h0
        rw [contourNear, if_pos ⟨hout, hbusy⟩]
        have hmem : ({ x := p.x + d0.1, y := p.y + d0.2 } : Point) ∈
            b.busy ++ [({ x := p.x + d0.1, y := p.y + d0.2 } : Point)] :=
          List.mem_append.mpr (Or.inr (List.mem_singleton.mpr rfl))
        refine ⟨?_, contourNear_busy_mono _ _ _ _ _ hmem⟩
        rw [contourNear_field_busy _ _ _ _ _ hmem]
        exact Function.update_same _ _ _
      · have hne : ({ x := p.x + d.1, y := p.y + d.2 } : Point) ≠
            ({ x := p.x + d0.1, y := p.y + d0.2 } : Point) := by
          intro he
          rw [Point.mk.injEq] at he
          exact h0 (Prod.ext (by omega) (by omega))
        rw [contourNear]
        split
        · refine ih _ d hd' hout ?_
          simp only [List.mem_append, List.mem_singleton]
          rintro (h | h)
          · exact hbusy h
          · exact hne h
        · exact ih b d hd' hout hbusy

theorem contourNear_verb_false (p : Point) (ds : List (Int × Int)) :
    ∀ b : Board, (contourNear b p false ds).field = b.field := by
  induction ds with
  | nil => intro b; rfl
  | cons d ds ih =>
    intro b
    rw [contourNear]
    split
    · exact ih _
    · exact ih b

theorem contourPoints_const (v : Bool) (ps : List Point) :
    ∀ b : Board, (contourPoints b v ps).size = b.size ∧
      (contourPoints b v ps).ships = b.ships ∧
      (contourPoints b v ps).shots = b.shots := by
  induction ps with
  | nil => intro b; exact ⟨rfl, rfl, rfl⟩
  | cons p ps ih =>
    intro b
    rw [contourPoints]
    obtain ⟨h1, h2, h3⟩ := ih (contourNear b p v near)
    obtain ⟨g1, g2, g3⟩ := contourNear_const p v near b
    exact ⟨h1.trans g1, h2.trans g2, h3.trans g3⟩

theorem contourPoints_busy_mono (v : Bool) (ps : List Point) :
    ∀ (b : Board) (q : Point), q ∈ b.busy → q ∈ (contourPoints b v ps).busy := by
  induction ps with
  | nil => intro b q hq; exact hq
  | cons p ps ih =>
    intro b q hq
    rw [contourPoints]
    exact ih _ q (contourNear_busy_mono p v near b q hq)

theorem out_congr {b b' : Board} (h : b'.size = b.size) (q : Point) :
    b'.out q = b.out q := by
  unfold Board.out
  rw [h]

theorem contourPoints_cover (v : Bool) (ps : List Point) :
    ∀ (b : Board) (pt : Point), pt ∈ ps → ∀ q : Point, adjacent q pt →
      b.out q = false → q ∈ (contourPoints b v ps).busy := by
  induction ps with
  | nil => intro b pt hpt; exact absurd hpt (List.not_mem_nil pt)
  | cons p0 ps ih =>
    intro b pt hpt q hadj hout
    rcases List.mem_cons.mp hpt with rfl | hpt'
    · obtain ⟨d, hd, rfl⟩ := (adjacent_iff_near q pt).mp hadj
      rw [contourPoints]
      exact contourPoints_busy_mono v ps _ _ (contourNear_cover pt v near b d hd hout)
    · rw [contourPoints]
      refine ih _ pt hpt' q hadj ?_
      rw [out_congr (contourNear_const p0 v near b).1 q]
      exact hout

theorem contourPoints_field_busy (v : Bool) (ps : List Point) :
    ∀ (b : Board) (q : Point), q ∈ b.busy →
      (contourPoints b v ps).field q = b.field q := by
  induction ps with
  | nil => intro b q _; rfl
  | cons p ps ih =>
    intro b q hq
    rw [contourPoints]
    rw [ih _ q (contourNear_busy_mono p v near b q hq)]
    exact contourNear_field_busy p v near b q hq

theorem contourPoints_frame (v : Bool) (ps : List Point) :
    ∀ (b : Board) (q : Point), (∀ pt ∈ ps, ¬ adjacent q pt) →
      (contourPoints b v ps).field q = b.field q ∧
      (q ∈ (contourPoints b v ps).busy ↔ q ∈ b.busy) := by
  induction ps with
  | nil => intro b q _; exact ⟨rfl, Iff.rfl⟩
  | cons p0 ps ih =>
    intro b q hq
    have h0 : ¬ adjacent q p0 := hq p0 (List.mem_cons_self p0 ps)
    have hq' : ∀ pt ∈ ps, ¬ adjacent q pt :=
      fun pt hpt => hq pt (List.mem_cons_of_mem p0 hpt)
    have hnear : ∀ d ∈ near, q ≠ ({ x := p0.x + d.1, y := p0.y + d.2 } : Point) := by
      intro d hd he
      exact h0 ((adjacent_iff_near q p0).mpr ⟨d, hd, he⟩)
    obtain ⟨hf0, hb0⟩ := contourNear_frame p0 v near b q hnear
    rw [contourPoints]
    obtain ⟨hf, hb⟩ := ih (contourNear b p0 v near) q hq'
    exact ⟨hf.trans hf0, hb.trans hb0⟩

theorem contourPoints_mark (ps : List Point) :
    ∀ (b : Board) (pt : Point), pt ∈ ps → ∀ q : Point, adjacent q pt →
      b.out q = false → q ∉ b.busy →
      (contourPoints b true ps).field q = Cell.dot ∧
      q ∈ (contourPoints b true ps).busy := by
  induction ps with
  | nil => intro b pt hpt; exact absurd hpt (List.not_mem_nil pt)
  | cons p0 ps ih =>
    intro b pt hpt q hadj hout hbusy
    by_cases h0 : adjacent q p0
    · obtain ⟨d, hd, rfl⟩ := (adjacent_iff_near q p0).mp h0
      obtain ⟨hfd, hbd⟩ := contourNear_mark p0 near b d hd hout hbusy
      rw [contourPoints]
      constructor
      · rw [contourPoints_field_busy true ps _ _ hbd]
        exact hfd
      · exact contourPoints_busy_mono true ps _ _ hbd
    · have hpt' : pt ∈ ps := by
        rcases List.mem_cons.mp hpt with rfl | h
        · exact absurd hadj h0
        · exact h
      have hnear : ∀ d ∈ near, q ≠ ({ x := p0.x + d.1, y := p0.y + d.2 } : Point) := by
        intro d hd he
        exact h0 ((adjacent_iff_near q p0).mpr ⟨d, hd, he⟩)
      obtain ⟨hf0, hb0⟩ := contourNear_frame p0 true near b q hnear
      rw [contourPoints]
      refine ih _ pt hpt' q hadj ?_ ?_
      · rw [out_congr (contourNear_const p0 true near b).1 q]
        exact hout
      · rw [hb0]
        exact hbusy

theorem contourPoints_verb_false (ps : List Point) :
    ∀ b : Board, (contourPoints b false ps).field = b.field := by
  induction ps with
  | nil => intro b; rfl
  | cons p ps ih =>
    intro b
    rw [contourPoints, ih, contourNear_verb_false]

/-! ### Lemmas about `Board.add_ship` -/

theorem addShipFold (l : List Point) :
    ∀ b : Board,
      (l.foldl (fun acc p =>
        { acc with field := Function.update acc.field p Cell.ship,
                   busy := acc.busy ++ [p] }) b).size = b.size ∧
      (l.foldl (fun acc p =>
        { acc with field := Function.update acc.field p Cell.ship,
                   busy := acc.busy ++ [p] }) b).ships = b.ships ∧
      (l.foldl (fun acc p =>
        { acc with field := Function.update acc.field p Cell.ship,
                   busy := acc.busy ++ [p] }) b).shots = b.shots ∧
      (l.foldl (fun acc p =>
        { acc with field := Function.update acc.field p Cell.ship,
                   busy := acc.busy ++ [p] }) b).busy = b.busy ++ l ∧
      ∀ q : Point, (l.foldl (fun acc p =>
        { acc with field := Function.update acc.field p Cell.ship,
                   busy := acc.busy ++ [p] }) b).field q
        = if q ∈ l then Cell.ship else b.field q := by
  induction l with
  | nil =>
    intro b
    refine ⟨rfl, rfl, rfl, (List.append_nil b.busy).symm, fun q => ?_⟩
    rw [List.foldl_nil, if_neg (List.not_mem_nil q)]
  | cons p l ih =>
    intro b
    obtain ⟨h1, h2, h3, h4, h5⟩ :=
      ih { b with field := Function.update b.field p Cell.ship, busy := b.busy ++ [p] }
    refine ⟨h1, h2, h3, ?_, ?_⟩
    · rw [List.foldl_cons, h4, List.append_assoc, List.singleton_append]
    · intro q
      rw [List.foldl_cons, h5 q]
      by_cases hql : q ∈ l
      · rw [if_pos hql, if_pos (List.mem_cons_of_mem p hql)]
      · rw [if_neg hql]
        by_cases hqp : q = p
        · subst hqp
          rw [if_pos (List.mem_cons_self q l)]
          exact Function.update_same q Cell.ship b.field
        · rw [if_neg (by simp only [List.mem_cons]; rintro (h | h); exact hqp h; exact hql h)]
          exact Function.update_noteq hqp Cell.ship b.field

theorem add_ship_error_iff (b : Board) (s : Ship) :
    (b.add_ship s).2 = Except.error BoardException.wrongShip ↔
      ∃ p ∈ s.points, b.out p = true ∨ p ∈ b.busy := by
  unfold Board.add_ship
  by_cases h : s.points.any (fun p => b.out p || decide (p ∈ b.busy)) = true
  · rw [if_pos h]
    constructor
    · intro _
      rw [List.any_eq_true] at h
      obtain ⟨p, hp, hcond⟩ := h
      rw [Bool.or_eq_true] at hcond
      refine ⟨p, hp, ?_⟩
      rcases hcond with hc | hc
      · exact Or.inl hc
      · exact Or.inr (of_decide_eq_true hc)
    · intro _
      rfl
  · rw [if_neg h]
    constructor
    · intro hcontra
      exact absurd hcontra (by simp)
    · intro hex
      rw [Bool.not_eq_true, List.any_eq_false] at h
      obtain ⟨p, hp, hcond⟩ := hex
      have hP := h p hp
      rw [Bool.or_eq_true] at hP
      exfalso
      rcases hcond with hc | hc
      · exact hP (Or.inl hc)
      · exact hP (Or.inr (decide_eq_true hc))

theorem add_ship_error_unchanged (b : Board) (s : Ship) (e : BoardException)
    (h : (b.add_ship s).2 = Except.error e) : (b.add_ship s).1 = b := by
  unfold Board.add_ship at h ⊢
  by_cases hc : s.points.any (fun p => b.out p || decide (p ∈ b.busy)) = true
  · rw [if_pos hc]
  · rw [if_neg hc] at h
    exact absurd h (by simp)

theorem add_ship_ok (b : Board) (s : Ship) (b' : Board) (u : Unit)
    (h : b.add_ship s = (b', Except.ok u)) :
    (∀ p ∈ s.points, b.out p = false ∧ p ∉ b.busy) ∧
    b'.ships = b.ships ++ [s] ∧ b'.size = b.size ∧ b'.shots = b.shots ∧
    (∀ q ∈ b.busy, q ∈ b'.busy) ∧
    (∀ p ∈ s.points, p ∈ b'.busy ∧ b'.field p = Cell.ship) ∧
    (∀ p ∈ s.points, ∀ q : Point, adjacent q p → b.out q = false → q ∈ b'.busy) := by
  have hany : s.points.any (fun p => b.out p || decide (p ∈ b.busy)) = false := by
    by_contra hc
    rw [Bool.not_eq_false] at hc
    unfold Board.add_ship at h
    rw [if_pos hc] at h
    exact absurd (congrArg Prod.snd h) (by simp)
  have hchecks : ∀ p ∈ s.points, b.out p = false ∧ p ∉ b.busy := by
    rw [List.any_eq_false] at hany
    intro p hp
    have hP := hany p hp
    rw [Bool.or_eq_true] at hP
    push_neg at hP
    obtain ⟨h1, h2⟩ := hP
    refine ⟨?_, fun hm => h2 (decide_eq_true hm)⟩
    exact Bool.eq_false_iff.mpr h1
  obtain ⟨f1, f2, f3, f4, f5⟩ := addShipFold s.points b
  unfold Board.add_ship at h
  rw [if_neg (by rw [hany]; exact Bool.false_ne_true)] at h
  set b1 := s.points.foldl (fun acc p =>
    { acc with field := Function.update acc.field p Cell.ship,
               busy := acc.busy ++ [p] }) b with hb1
  simp only [Prod.mk.injEq] at h
  have hb' : b' = Board.contour { b1 with ships := b1.ships ++ [s] } s false := h.1.symm
  refine ⟨hchecks, ?_, ?_, ?_, ?_, ?_, ?_⟩
  · rw [hb']
    unfold Board.contour
    rw [(contourPoints_const false s.points _).2.1]
    show b1.ships ++ [s] = b.ships ++ [s]
    rw [f2]
  · rw [hb']
    unfold Board.contour
    rw [(contourPoints_const false s.points _).1]
    show b1.size = b.size
    exact f1
  · rw [hb']
    unfold Board.contour
    rw [(contourPoints_const false s.points _).2.2]
    show b1.shots = b.shots
    exact f3
  · intro q hq
    rw [hb']
    unfold Board.contour
    refine contourPoints_busy_mono false s.points _ q ?_
    show q ∈ b1.busy
    rw [f4]
    exact List.mem_append.mpr (Or.inl hq)
  · intro p hp
    refine ⟨?_, ?_⟩
    · rw [hb']
      unfold Board.contour
      refine contourPoints_busy_mono false s.points _ p ?_
      show p ∈ b1.busy
      rw [f4]
      exact List.mem_append.mpr (Or.inr hp)
    · rw [hb']
      unfold Board.contour
      rw [contourPoints_verb_false]
      show b1.field p = Cell.ship
      rw [f5 p, if_pos hp]
  · intro p hp q hadj hout
    rw [hb']
    unfold Board.contour
    refine contourPoints_cover false s.points _ p hp q hadj ?_
    have hsz : ({ b1 with ships := b1.ships ++ [s] } : Board).size = b.size := f1
    rw [out_congr hsz q]
    exact hout

/-! ### Lemmas about `hitScan` and `Board.shot` -/

theorem hitScan_none (p : Point) (l : List Ship) :
    hitScan p l = none ↔ ∀ s ∈ l, s.hit p = false := by
  induction l with
  | nil =>
    constructor
    · intro _ s hs
      exact absurd hs (List.not_mem_nil s)
    · intro _
      rfl
  | cons s l ih =>
    rw [hitScan]
    by_cases hh : s.hit p = true
    · rw [if_pos hh]
      constructor
      · intro hcontra
        exact absurd hcontra (by simp)
      · intro hall
        have hf := hall s (List.mem_cons_self s l)
        rw [hh] at hf
        exact absurd hf (by simp)
    · rw [if_neg hh]
      have hf : s.hit p = false := Bool.eq_false_iff.mpr hh
      rcases hsc : hitScan p l with _ | pr
      · constructor
        · intro _ t ht
          rcases List.mem_cons.mp ht with rfl | ht'
          · exact hf
          · exact (ih.mp hsc) t ht'
        · intro _
          rfl
      · constructor
        · intro hcontra
          exact absurd hcontra (by simp)
        · intro hall
          have : hitScan p l = none := ih.mpr (fun t ht => hall t (List.mem_cons_of_mem s ht))
          rw [this] at hsc
          exact absurd hsc (by simp)

theorem hitScan_some (p : Point) (l : List Ship) :
    ∀ l' hs, hitScan p l = some (l', hs) →
      ∃ l1 s l2, l = l1 ++ s :: l2 ∧ (∀ t ∈ l1, t.hit p = false) ∧ s.hit p = true ∧
        hs = { s with lives := s.lives - 1 } ∧ l' = l1 ++ hs :: l2 := by
  induction l with
  | nil =>
    intro l' hs h
    exact absurd h (by rw [hitScan]; simp)
  | cons s l ih =>
    intro l' hs h
    rw [hitScan] at h
    by_cases hh : s.hit p = true
    · rw [if_pos hh] at h
      rw [Option.some.injEq, Prod.mk.injEq] at h
      refine ⟨[], s, l, rfl, by intro t ht; exact absurd ht (List.not_mem_nil t), hh,
        h.2.symm, ?_⟩
      rw [List.nil_append, ← h.1, h.2]
    · rw [if_neg hh] at h
      rcases hsc : hitScan p l with _ | pr
      · rw [hsc] at h
        exact absurd h (by simp)
      · rw [hsc] at h
        obtain ⟨rest', hs'⟩ := pr
        rw [Option.some.injEq, Prod.mk.injEq] at h
        obtain ⟨l1, t, l2, he, hall, hht, hhs, hl'⟩ := ih rest' hs' hsc
        refine ⟨s :: l1, t, l2, by rw [List.cons_append, he], ?_, hht, ?_, ?_⟩
        · intro t' ht'
          rcases List.mem_cons.mp ht' with rfl | ht''
          · exact Bool.eq_false_iff.mpr hh
          · exact hall t' ht''
        · rw [← h.2]
          exact hhs
        · rw [← h.1, hl', List.cons_append, h.2]

theorem shot_out_eq (b : Board) (p : Point) (h : b.out p = true) :
    b.shot p = (b, Except.error BoardException.out) := by
  unfold Board.shot
  rw [if_pos h]

theorem shot_used_eq (b : Board) (p : Point) (h : b.out p = false) (h2 : p ∈ b.shots) :
    b.shot p = (b, Except.error BoardException.used) := by
  unfold Board.shot
  rw [if_neg (by rw [h]; exact Bool.false_ne_true), if_pos h2]

theorem shot_fresh (b : Board) (p : Point) (h : b.out p = false) (h2 : p ∉ b.shots) :
    (b.shot p).1.shots = b.shots ++ [p] ∧ (b.shot p).1.size = b.size ∧
    ((hitScan p b.ships = none ∧ (b.shot p).1.ships = b.ships ∧
        (b.shot p).2 = Except.ok false) ∨
     (∃ ships' s', hitScan p b.ships = some (ships', s') ∧
        (b.shot p).1.ships = ships' ∧ (b.shot p).2 = Except.ok true)) := by
  unfold Board.shot
  rw [if_neg (by rw [h]; exact Bool.false_ne_true), if_neg h2]
  rcases hsc : hitScan p b.ships with _ | pr
  · simp only [hsc]
    exact ⟨trivial, trivial, Or.inl ⟨trivial, trivial, trivial⟩⟩
  · obtain ⟨ships', s'⟩ := pr
    simp only [hsc]
    by_cases hl : s'.lives = 0
    · rw [if_pos hl]
      obtain ⟨c1, c2, c3⟩ := contourPoints_const true s'.points
        { b with shots := b.shots ++ [p], ships := ships',
                 field := Function.update b.field p Cell.hitMark }
      exact ⟨c3, c1, Or.inr ⟨ships', s', rfl, c2, rfl⟩⟩
    · rw [if_neg hl]
      exact ⟨rfl, rfl, Or.inr ⟨ships', s', rfl, rfl, rfl⟩⟩

/-! ### Claim C1 -/

/-- Claim C1: `Board.shot` raises `BoardOutException` iff the point is out
of bounds; for an in-bounds point it raises `BoardUsedException` iff the
point was already shot; otherwise it appends the point to `shots` and
returns a result, so a second shot at the same in-bounds point raises
`BoardUsedException`; and on either error the board (in particular
`shots` and `field`) is unchanged. -/
theorem c1_shot_spec (b : Board) (p : Point) :
    ((b.shot p).2 = Except.error BoardException.out ↔ b.out p = true) ∧
    (b.out p = false →
      ((b.shot p).2 = Except.error BoardException.used ↔ p ∈ b.shots)) ∧
    (b.out p = false → p ∉ b.shots →
      (b.shot p).1.shots = b.shots ++ [p] ∧ ∃ r : Bool, (b.shot p).2 = Except.ok r) ∧
    (∀ e, (b.shot p).2 = Except.error e → (b.shot p).1 = b) ∧
    (b.out p = false → p ∉ b.shots →
      ((b.shot p).1.shot p).2 = Except.error BoardException.used) := by
  by_cases hout : b.out p = true
  · rw [shot_out_eq b p hout]
    refine ⟨iff_of_true rfl hout, ?_, ?_, ?_, ?_⟩
    · intro hf
      rw [hf] at hout
      exact absurd hout (by simp)
    · intro hf
      rw [hf] at hout
      exact absurd hout (by simp)
    · intro e _
      rfl
    · intro hf
      rw [hf] at hout
      exact absurd hout (by simp)
  · have hout' : b.out p = false := Bool.eq_false_iff.mpr hout
    by_cases hmem : p ∈ b.shots
    · rw [shot_used_eq b p hout' hmem]
      refine ⟨iff_of_false (by simp) hout, ?_, ?_, ?_, ?_⟩
      · intro _
        exact iff_of_true rfl hmem
      · intro _ h2
        exact absurd hmem h2
      · intro e _
        rfl
      · intro _ h2
        exact absurd hmem h2
    · obtain ⟨hshots, hsize, hcases⟩ := shot_fresh b p hout' hmem
      have hok : ∃ r : Bool, (b.shot p).2 = Except.ok r := by
        rcases hcases with ⟨_, _, hr⟩ | ⟨_, _, _, _, hr⟩
        · exact ⟨false, hr⟩
        · exact ⟨true, hr⟩
      obtain ⟨r, hr⟩ := hok
      refine ⟨?_, ?_, ?_, ?_, ?_⟩
      · rw [hr]
        exact iff_of_false (by simp) hout
      · intro _
        rw [hr]
        exact iff_of_false (by simp) hmem
      · intro _ _
        exact ⟨hshots, r, hr⟩
      · intro e he
        rw [hr] at he
        exact absurd he (by simp)
      · intro _ _
        refine shot_used_eq ((b.shot p).1) p ?_ ?_ ▸ rfl
        · rw [out_congr hsize p]
          exact hout'
        · rw [hshots]
          exact List.mem_append.mpr (Or.inr (List.mem_singleton.mpr rfl))

/-- Witness for C1 at a concrete board and point: shooting the empty 6×6
board at (0,0) succeeds and appends the shot; shooting again raises
`BoardUsedException`; shooting (7,0) raises `BoardOutException`. -/
theorem c1_shot_spec_witness :
    ((mkBoard 6 false).shot ⟨7, 0⟩).2 = Except.error BoardException.out ∧
    ((mkBoard 6 false).shot ⟨0, 0⟩).1.shots = [⟨0, 0⟩] ∧
    (((mkBoard 6 false).shot ⟨0, 0⟩).1.shot ⟨0, 0⟩).2 =
      Except.error BoardException.used := by
  refine ⟨(c1_shot_spec (mkBoard 6 false) ⟨7, 0⟩).1.mpr (by decide), ?_, ?_⟩
  · have h := ((c1_shot_spec (mkBoard 6 false) ⟨0, 0⟩).2.2.1 (by decide) (by decide)).1
    rw [h]
    rfl
  · exact (c1_shot_spec (mkBoard 6 false) ⟨0, 0⟩).2.2.2.2 (by decide) (by decide)

/-! ### Claim C6 -/

/-- Claim C6: `Ship.points` returns exactly `length` coordinates; the
i-th coordinate is the bow offset by `i` along the orientation axis
(direction 0 varies `y`, direction 1 varies `x`), so the cells are
collinear, consecutive and start at the bow.  Purity and determinism are
immediate from `Ship.points` being a function of the ship alone. -/
theorem c6_points_spec (s : Ship) :
    s.points.length = s.length ∧
    (∀ h : 0 < s.points.length, s.points[0] = s.bow) ∧
    (s.direction = 0 → ∀ (i : Nat) (h : i < s.points.length),
      s.points[i] = { x := s.bow.x, y := s.bow.y + (i : Int) }) ∧
    (s.direction = 1 → ∀ (i : Nat) (h : i < s.points.length),
      s.points[i] = { x := s.bow.x + (i : Int), y := s.bow.y }) := by
  refine ⟨points_length s, ?_, ?_, ?_⟩
  · intro h
    rw [points_getElem s 0 h]
    cases s.bow
    rw [Point.mk.injEq]
    constructor <;> simp
  · intro hd i h
    rw [points_getElem s i h, hd]
    rw [Point.mk.injEq]
    constructor <;> simp
  · intro hd i h
    rw [points_getElem s i h, hd]
    rw [Point.mk.injEq]
    constructor <;> simp

/-- Witness for C6 at a concrete ship: a horizontal ship of length 3 with
bow (2,3) occupies exactly (2,3), (2,4), (2,5). -/
theorem c6_points_spec_witness :
    (mkShip ⟨2, 3⟩ 3 0).points.length = 3 ∧
    (mkShip ⟨2, 3⟩ 3 0).points.get ⟨0, by decide⟩ = (⟨2, 3⟩ : Point) ∧
    (mkShip ⟨2, 3⟩ 3 0).points.get ⟨2, by decide⟩ = (⟨2, 5⟩ : Point) := by
  obtain ⟨h1, h2, h3, _⟩ := c6_points_spec (mkShip ⟨2, 3⟩ 3 0)
  exact ⟨h1, h2 (by decide), h3 rfl 2 (by decide)⟩

/-! ### Claim C2 -/

/-- The 6×6 board with a single length-1 ship placed at (0,0). -/
def oneShipBoard : Board := ((mkBoard 6 false).add_ship (mkShip ⟨0, 0⟩ 1 0)).1

/-- Counterexample to C2 as stated: `Board.add_ship` signals out-of-bounds
placements and conflicting placements with the one and the same error
value (`BoardWrongShipException`), not with two distinct error kinds, and
an off-board neighbor such as (-1,-1) of the corner cell (0,0) is not
added to `busy` (only in-bounds neighbors are). -/
theorem c2_counterexample :
    ((mkBoard 6 false).add_ship (mkShip ⟨7, 7⟩ 1 0)).2 =
      Except.error BoardException.wrongShip ∧
    (oneShipBoard.add_ship (mkShip ⟨0, 0⟩ 1 0)).2 =
      Except.error BoardException.wrongShip ∧
    (⟨-1, -1⟩ : Point) ∉ oneShipBoard.busy := by
  refine ⟨?_, ?_, by decide⟩
  · exact (add_ship_error_iff (mkBoard 6 false) (mkShip ⟨7, 7⟩ 1 0)).mpr
      ⟨⟨7, 7⟩, by decide, Or.inl (by decide)⟩
  · exact (add_ship_error_iff oneShipBoard (mkShip ⟨0, 0⟩ 1 0)).mpr
      ⟨⟨0, 0⟩, by decide, Or.inr (by decide)⟩

/-- Claim C2 (amended): `Board.add_ship` checks every cell of the ship
before any mutation and fails with the single error kind
`BoardWrongShipException` both for an out-of-bounds cell and for a cell
already in `busy`; on failure the board is completely unchanged; on
success every ship cell is marked `"■"` and added to `busy`, the ship is
appended to `ships`, and every in-bounds one of the 8 neighbors (plus the
cell itself) of every ship cell is added to `busy` (out-of-bounds
neighbors are skipped). -/
theorem c2_add_ship_amended (b : Board) (s : Ship) :
    ((b.add_ship s).2 = Except.error BoardException.wrongShip ↔
      ∃ p ∈ s.points, b.out p = true ∨ p ∈ b.busy) ∧
    (∀ e, (b.add_ship s).2 = Except.error e → (b.add_ship s).1 = b) ∧
    (∀ b' u, b.add_ship s = (b', Except.ok u) →
      b'.ships = b.ships ++ [s] ∧
      (∀ p ∈ s.points, b'.field p = Cell.ship ∧ p ∈ b'.busy) ∧
      (∀ p ∈ s.points, ∀ q : Point, adjacent q p → b.out q = false → q ∈ b'.busy)) := by
  refine ⟨add_ship_error_iff b s, add_ship_error_unchanged b s, ?_⟩
  intro b' u h
  obtain ⟨_, h2, _, _, _, h6, h7⟩ := add_ship_ok b s b' u h
  exact ⟨h2, fun p hp => ⟨(h6 p hp).2, (h6 p hp).1⟩, h7⟩

/-- Witness for the amended C2 at concrete inputs: placing a length-1 ship
at (0,0) on the empty board appends it to `ships`, marks its cell, and
puts the in-bounds neighbor (1,1) into `busy`; the attempted overlapping
placement leaves the board unchanged. -/
theorem c2_add_ship_amended_witness :
    oneShipBoard.ships = [mkShip ⟨0, 0⟩ 1 0] ∧
    oneShipBoard.field ⟨0, 0⟩ = Cell.ship ∧
    (⟨1, 1⟩ : Point) ∈ oneShipBoard.busy ∧
    (oneShipBoard.add_ship (mkShip ⟨0, 0⟩ 1 0)).1 = oneShipBoard := by
  have h := c2_add_ship_amended (mkBoard 6 false) (mkShip ⟨0, 0⟩ 1 0)
  have hok : (mkBoard 6 false).add_ship (mkShip ⟨0, 0⟩ 1 0) =
      (oneShipBoard, Except.ok ()) := by
    have : ((mkBoard 6 false).add_ship (mkShip ⟨0, 0⟩ 1 0)).2 = Except.ok () := by decide
    rw [Prod.ext_iff]
    exact ⟨rfl, this⟩
  obtain ⟨h1, h2, h3⟩ := (h.2.2 oneShipBoard () hok)
  have h4 := c2_add_ship_amended oneShipBoard (mkShip ⟨0, 0⟩ 1 0)
  refine ⟨by rw [h1]; rfl, (h2 ⟨0, 0⟩ (by decide)).1, ?_, ?_⟩
  · exact h3 ⟨0, 0⟩ (by decide) ⟨1, 1⟩ (by decide) (by decide)
  · exact h4.2.1 BoardException.wrongShip
      (h4.1.mpr ⟨⟨0, 0⟩, by decide, Or.inr (by decide)⟩)

/-! ### Claim C5 -/

theorem hitScan_firstHit (p : Point) (s : Ship) (post : List Ship) :
    ∀ pre : List Ship, (∀ t ∈ pre, t.hit p = false) → s.hit p = true →
      hitScan p (pre ++ s :: post) =
        some (pre ++ { s with lives := s.lives - 1 } :: post,
              { s with lives := s.lives - 1 }) := by
  intro pre
  induction pre with
  | nil =>
    intro _ hhit
    rw [List.nil_append, List.nil_append, hitScan, if_pos hhit]
  | cons t pre ih =>
    intro hpre hhit
    rw [List.cons_append, hitScan,
      if_neg (by rw [hpre t (List.mem_cons_self t pre)]; simp),
      ih (fun t' ht' => hpre t' (List.mem_cons_of_mem t ht')) hhit,
      List.cons_append]

/-- Claim C5 (amended): when a shot sinks a ship (its lives reach 0), the
board draws the destroyed ship's contour with `verb = True`: every
in-bounds cell within Chebyshev distance 1 of a ship cell — including the
ship's own cells, since the offset list contains (0,0) — that is not in
`busy` is overwritten with the `"."` marker (destroying the `"X"` hit
marks on the ship itself) and appended to the `busy` list during play;
cells not adjacent to the ship keep their state and busy-membership. -/
theorem c5_sunk_contour (b : Board) (p : Point) (pre post : List Ship) (s : Ship)
    (hships : b.ships = pre ++ s :: post)
    (hpre : ∀ t ∈ pre, t.hit p = false)
    (hhit : s.hit p = true)
    (hlives : s.lives = 1)
    (hout : b.out p = false)
    (hfresh : p ∉ b.shots) :
    (b.shot p).2 = Except.ok true ∧
    (∀ q : Point, (∃ pt ∈ s.points, adjacent q pt) → b.out q = false →
      q ∉ b.busy → (b.shot p).1.field q = Cell.dot ∧ q ∈ (b.shot p).1.busy) ∧
    (∀ q : Point, (∀ pt ∈ s.points, ¬ adjacent q pt) →
      (b.shot p).1.field q = b.field q ∧ (q ∈ (b.shot p).1.busy ↔ q ∈ b.busy)) := by
  have hp_mem : p ∈ s.points := of_decide_eq_true hhit
  have hscan : hitScan p b.ships =
      some (pre ++ { s with lives := s.lives - 1 } :: post,
            { s with lives := s.lives - 1 }) := by
    rw [hships]
    exact hitScan_firstHit p s post pre hpre hhit
  unfold Board.shot
  rw [if_neg (by rw [hout]; exact Bool.false_ne_true), if_neg hfresh]
  simp only [hscan]
  rw [if_pos (by rw [hlives]; rfl)]
  have hspts : ({ s with lives := s.lives - 1 } : Ship).points = s.points :=
    points_lives s (s.lives - 1)
  refine ⟨rfl, ?_, ?_⟩
  · intro q hadj hqout hqbusy
    obtain ⟨pt, hpt, hqa⟩ := hadj
    unfold Board.contour
    rw [hspts]
    exact contourPoints_mark s.points _ pt hpt q hqa hqout hqbusy
  · intro q hnadj
    unfold Board.contour
    rw [hspts]
    obtain ⟨hf, hb⟩ := contourPoints_frame true s.points _ q hnadj
    refine ⟨?_, hb⟩
    rw [hf]
    have hqp : q ≠ p := by
      intro he
      exact hnadj p hp_mem (he ▸ adjacent_refl p)
    exact Function.update_noteq hqp Cell.hitMark b.field

/-- The board used to exhibit C5's behavior concretely: a 6×6 board whose
single ship is the length-1 ship at (0,0), after `begin` cleared `busy`. -/
def c5Board : Board := oneShipBoard.begin

/-- Counterexample to C5 as stated: sinking the length-1 ship at (0,0)
does not keep the ship's own cell in the hit state — the cell is
overwritten with the `"."` marker — and the marked cells are re-added to
the `busy` placement-constraint list during play. -/
theorem c5_counterexample :
    (c5Board.shot ⟨0, 0⟩).2 = Except.ok true ∧
    (c5Board.shot ⟨0, 0⟩).1.field ⟨0, 0⟩ = Cell.dot ∧
    (⟨0, 0⟩ : Point) ∈ (c5Board.shot ⟨0, 0⟩).1.busy := by
  decide

/-- Witness for the amended C5 at concrete inputs: sinking the length-1
ship at (0,0) marks the in-bounds neighbor (1,1) with `"."` and adds it
to `busy`, while the distant cell (3,3) keeps its state and stays out of
`busy`. -/
theorem c5_sunk_contour_witness :
    ((c5Board.shot ⟨0, 0⟩).1.field ⟨1, 1⟩ = Cell.dot ∧
      (⟨1, 1⟩ : Point) ∈ (c5Board.shot ⟨0, 0⟩).1.busy) ∧
    ((c5Board.shot ⟨0, 0⟩).1.field ⟨3, 3⟩ = c5Board.field ⟨3, 3⟩ ∧
      ((⟨3, 3⟩ : Point) ∈ (c5Board.shot ⟨0, 0⟩).1.busy ↔
        (⟨3, 3⟩ : Point) ∈ c5Board.busy)) := by
  have h := c5_sunk_contour c5Board ⟨0, 0⟩ [] [] (mkShip ⟨0, 0⟩ 1 0)
    (by decide) (by intro t ht; exact absurd ht (List.not_mem_nil t))
    (by decide) (by decide) (by decide) (by decide)
  exact ⟨h.2.1 ⟨1, 1⟩ (by decide) (by decide) (by decide),
         h.2.2 ⟨3, 3⟩ (by decide)⟩

/-! ### Claim C10 -/

theorem shot_error_unchanged (b : Board) (p : Point) (e : BoardException)
    (h : (b.shot p).2 = Except.error e) : (b.shot p).1 = b := by
  by_cases hout : b.out p = true
  · rw [shot_out_eq b p hout]
  · have hout' : b.out p = false := Bool.eq_false_iff.mpr hout
    by_cases hmem : p ∈ b.shots
    · rw [shot_used_eq b p hout' hmem]
    · obtain ⟨_, _, hcases⟩ := shot_fresh b p hout' hmem
      exfalso
      rcases hcases with ⟨_, _, hr⟩ | ⟨_, _, _, _, hr⟩ <;> rw [hr] at h <;>
        exact absurd h (by simp)

theorem move_error_skip (b : Board) (t : Point) (ts : List Point) (e : BoardException)
    (h : (b.shot t).2 = Except.error e) :
    Player.move b (t :: ts) = Player.move b ts := by
  rw [Player.move]
  rcases hsc : b.shot t with ⟨b', r⟩
  have hb' : b' = b := by
    have := shot_error_unchanged b t e h
    rw [hsc] at this
    exact this
  have hr : r = Except.error e := by
    rw [hsc] at h
    exact h
  rw [hr, hb']

/-- Claim C10: `User.ask` accepts its input iff it consists of exactly two
digit-string tokens — it never checks the resulting 0-based coordinate
against the board bounds, so the accepted tokens "0" "0" produce the
out-of-bounds coordinate (-1,-1) — and an out-of-bounds target handed to
`Player.move` is rejected only by `Board.shot`, whose error is caught so
that the loop re-prompts with the next candidate without ending the
turn. -/
theorem c10_user_ask_spec :
    (∀ (tokens : List String) (p : Point),
      User.ask tokens = some p ↔ ∃ x y, tokens = [x, y] ∧
        isdigitStr x = true ∧ isdigitStr y = true ∧
        p = { x := (strToNat x : Int) - 1, y := (strToNat y : Int) - 1 }) ∧
    User.ask ["0", "0"] = some ⟨-1, -1⟩ ∧
    (mkBoard 6 false).out ⟨-1, -1⟩ = true ∧
    (∀ (b : Board) (t : Point) (ts : List Point), b.out t = true →
      Player.move b (t :: ts) = Player.move b ts) := by
  refine ⟨?_, by decide, by decide, ?_⟩
  · intro tokens p
    rcases tokens with _ | ⟨x, _ | ⟨y, _ | ⟨z, rest⟩⟩⟩
    · have hnone : User.ask [] = none := rfl
      rw [hnone]
      constructor
      · intro h
        exact absurd h (by simp)
      · rintro ⟨x, y, h, -⟩
        exact absurd h (by simp)
    · have hnone : User.ask [x] = none := rfl
      rw [hnone]
      constructor
      · intro h
        exact absurd h (by simp)
      · rintro ⟨x', y', h, -⟩
        exact absurd h (by simp)
    · have heq : User.ask [x, y] =
        if isdigitStr x && isdigitStr y then
          some { x := (strToNat x : Int) - 1, y := (strToNat y : Int) - 1 }
        else none := rfl
      rw [heq]
      by_cases hd : (isdigitStr x && isdigitStr y) = true
      · rw [if_pos hd]
        rw [Bool.and_eq_true] at hd
        constructor
        · intro h
          rw [Option.some.injEq] at h
          exact ⟨x, y, rfl, hd.1, hd.2, h.symm⟩
        · rintro ⟨x', y', he, -, -, hp⟩
          rw [List.cons.injEq, List.cons.injEq] at he
          obtain ⟨rfl, rfl, -⟩ := he
          rw [hp]
      · rw [if_neg hd]
        constructor
        · intro h
          exact absurd h (by simp)
        · rintro ⟨x', y', he, hdx, hdy, -⟩
          rw [List.cons.injEq, List.cons.injEq] at he
          obtain ⟨rfl, rfl, -⟩ := he
          rw [Bool.and_eq_true] at hd
          exact absurd ⟨hdx, hdy⟩ hd
    · have hnone : User.ask (x :: y :: z :: rest) = none := rfl
      rw [hnone]
      constructor
      · intro h
        exact absurd h (by simp)
      · rintro ⟨x', y', h, -⟩
        exact absurd h (by simp)
  · intro b t ts hout
    refine move_error_skip b t ts BoardException.out ?_
    rw [shot_out_eq b t hout]

/-- Witness for C10: the tokens "3" "4" are accepted and give the 0-based
coordinate (2,3), and handing the out-of-bounds (-1,-1) to `Player.move`
on the empty 6×6 board just consumes it and moves on to the next
candidate target. -/
theorem c10_user_ask_spec_witness :
    User.ask ["3", "4"] = some ⟨2, 3⟩ ∧
    Player.move (mkBoard 6 false) (⟨-1, -1⟩ :: [⟨0, 0⟩]) =
      Player.move (mkBoard 6 false) [⟨0, 0⟩] := by
  obtain ⟨h1, -, -, h4⟩ := c10_user_ask_spec
  refine ⟨(h1 ["3", "4"] ⟨2, 3⟩).mpr ⟨"3", "4", rfl, by decide, by decide, by decide⟩, ?_⟩
  exact h4 (mkBoard 6 false) ⟨-1, -1⟩ [⟨0, 0⟩] (by decide)

/-! ### Claim C9 -/

theorem askLoop_spec (enemy : Board) (stream : Nat → Fin 6 × Fin 6) :
    ∀ (fuel k : Nat) (p : Point), AI.askLoop enemy stream fuel k = some p →
      (0 ≤ p.x ∧ p.x < 6 ∧ 0 ≤ p.y ∧ p.y < 6) ∧ p ∉ enemy.shots ∧
      ∃ j, k ≤ j ∧
        p = { x := ((stream j).1 : Nat), y := ((stream j).2 : Nat) } ∧
        ∀ i, k ≤ i → i < j →
          ({ x := ((stream i).1 : Nat), y := ((stream i).2 : Nat) } : Point)
            ∈ enemy.shots := by
  intro fuel
  induction fuel with
  | zero =>
    intro k p h
    exact absurd h (by rw [AI.askLoop]; simp)
  | succ fuel ih =>
    intro k p h
    rw [AI.askLoop] at h
    by_cases hmem :
        ({ x := ((stream k).1 : Nat), y := ((stream k).2 : Nat) } : Point)
          ∈ enemy.shots
    · rw [if_pos hmem] at h
      obtain ⟨hrange, hfresh, j, hkj, hp, hprev⟩ := ih (k + 1) p h
      refine ⟨hrange, hfresh, j, by omega, hp, ?_⟩
      intro i hki hij
      by_cases hik : i = k
      · rw [hik]
        exact hmem
      · exact hprev i (by omega) hij
    · rw [if_neg hmem, Option.some.injEq] at h
      refine ⟨?_, ?_, k, Nat.le_refl k, h.symm, ?_⟩
      · rw [← h]
        refine ⟨Int.natCast_nonneg _, ?_, Int.natCast_nonneg _, ?_⟩
        · show ((((stream k).1 : Nat)) : Int) < 6
          exact_mod_cast ((stream k).1).isLt
        · show ((((stream k).2 : Nat)) : Int) < 6
          exact_mod_cast ((stream k).2).isLt
      · rw [← h]
        exact hmem
      · intro i hki hik
        omega

/-- Counterexample to C9 as stated: `AI.ask` draws from the hardcoded
range `randint(0, 5)` regardless of the board dimension, so on a 2×2
board it happily returns (5,5), which is outside `[0,dimension)²`. -/
theorem c9_counterexample :
    AI.ask (mkBoard 2 false) (fun _ => (5, 5)) 1 = some ⟨5, 5⟩ ∧
    (mkBoard 2 false).out ⟨5, 5⟩ = true := by
  decide

/-- Claim C9 (amended): `AI.ask` returns a coordinate drawn from the
fixed range `[0,6)²` (the hardcoded `randint(0, 5)`, which equals
`[0,dimension)²` only for the default dimension 6) that is not already in
the opponent board's `shots`, retrying the random stream in order until
the first fresh cell is found. -/
theorem c9_ai_ask_amended (enemy : Board) (stream : Nat → Fin 6 × Fin 6)
    (fuel : Nat) (p : Point) (h : AI.ask enemy stream fuel = some p) :
    (0 ≤ p.x ∧ p.x < 6 ∧ 0 ≤ p.y ∧ p.y < 6) ∧ p ∉ enemy.shots ∧
    ∃ j, p = { x := ((stream j).1 : Nat), y := ((stream j).2 : Nat) } ∧
      ∀ i < j, ({ x := ((stream i).1 : Nat), y := ((stream i).2 : Nat) } : Point)
        ∈ enemy.shots := by
  obtain ⟨hrange, hfresh, j, -, hp, hprev⟩ := askLoop_spec enemy stream fuel 0 p h
  exact ⟨hrange, hfresh, j, hp, fun i hij => hprev i (Nat.zero_le i) hij⟩

/-- Witness for the amended C9: on a board where (0,0) was already shot,
a stream that first draws (0,0) and then (2,3) makes `AI.ask` skip the
used cell and return the fresh in-range (2,3). -/
theorem c9_ai_ask_amended_witness :
    ∃ p : Point,
      AI.ask ((mkBoard 6 false).shot ⟨0, 0⟩).1
        (fun k => if k = 0 then (0, 0) else (2, 3)) 5 = some p ∧
      (0 ≤ p.x ∧ p.x < 6 ∧ 0 ≤ p.y ∧ p.y < 6) ∧
      p ∉ ((mkBoard 6 false).shot ⟨0, 0⟩).1.shots := by
  have h : AI.ask ((mkBoard 6 false).shot ⟨0, 0⟩).1
      (fun k => if k = 0 then (0, 0) else (2, 3)) 5 = some ⟨2, 3⟩ := by decide
  obtain ⟨hrange, hfresh, -⟩ := c9_ai_ask_amended _ _ 5 ⟨2, 3⟩ h
  exact ⟨⟨2, 3⟩, h, hrange, hfresh⟩

/-! ### Claim C7 -/

/-- Claim C7: in an iteration of `Game.loop` that does not end the match,
if the mover's `move` returned true the decrement cancels the
unconditional increment, so the next iteration uses the same `num` (and
hence the same side); if it returned false the index advances by exactly
1 and the parity — the side selector `num % 2` — flips. -/
theorem c7_turn_repeat (st : GameSt) (targets : List Point) (st' : GameSt) (r : Bool)
    (h : st.loopStep targets = some (st', none, r)) :
    st'.num = (if r then st.num else st.num + 1) ∧
    (st'.num % 2 = st.num % 2 ↔ r = true) := by
  unfold GameSt.loopStep at h
  by_cases hpar : st.num % 2 = 0
  · rw [if_pos hpar] at h
    rcases hmv : Player.move st.ai targets with _ | pr
    · rw [hmv] at h
      exact absurd h (by simp)
    · obtain ⟨ai', rep⟩ := pr
      simp only [hmv] at h
      by_cases hd1 : ai'.defeat = true
      · rw [if_pos hd1] at h
        exact absurd h (by simp)
      · rw [if_neg hd1] at h
        by_cases hd2 : st.us.defeat = true
        · rw [if_pos hd2] at h
          exact absurd h (by simp)
        · rw [if_neg hd2, Option.some.injEq, Prod.mk.injEq, Prod.mk.injEq] at h
          obtain ⟨hst, -, hr⟩ := h
          subst hst
          subst hr
          cases rep
          · refine ⟨rfl, ?_⟩
            show (st.num + 1) % 2 = st.num % 2 ↔ (false = true)
            exact iff_of_false (by omega) (by simp)
          · constructor
            · show st.num - 1 + 1 = st.num
              omega
            · show (st.num - 1 + 1) % 2 = st.num % 2 ↔ (true = true)
              exact iff_of_true (by omega) rfl
  · rw [if_neg hpar] at h
    rcases hmv : Player.move st.us targets with _ | pr
    · rw [hmv] at h
      exact absurd h (by simp)
    · obtain ⟨us', rep⟩ := pr
      simp only [hmv] at h
      by_cases hd1 : st.ai.defeat = true
      · rw [if_pos hd1] at h
        exact absurd h (by simp)
      · rw [if_neg hd1] at h
        by_cases hd2 : us'.defeat = true
        · rw [if_pos hd2] at h
          exact absurd h (by simp)
        · rw [if_neg hd2, Option.some.injEq, Prod.mk.injEq, Prod.mk.injEq] at h
          obtain ⟨hst, -, hr⟩ := h
          subst hst
          subst hr
          cases rep
          · refine ⟨rfl, ?_⟩
            show (st.num + 1) % 2 = st.num % 2 ↔ (false = true)
            exact iff_of_false (by omega) (by simp)
          · constructor
            · show st.num - 1 + 1 = st.num
              omega
            · show (st.num - 1 + 1) % 2 = st.num % 2 ↔ (true = true)
              exact iff_of_true (by omega) rfl

/-- Witness for C7: on a concrete state — user to move (`num = 0`), a
one-ship enemy board, target list hitting the length-2 ship once — the
move reports a repeat and the next index is again 0; with a missing
target the index advances to 1. -/
theorem c7_turn_repeat_witness :
    (∀ st' r, (GameSt.loopStep
        ⟨(((mkBoard 6 false).add_ship (mkShip ⟨0, 0⟩ 2 0)).1).begin,
         (((mkBoard 6 false).add_ship (mkShip ⟨0, 0⟩ 2 0)).1).begin, 0⟩
        [⟨0, 0⟩]).map (fun t => (t.1.num, t.2.1, t.2.2)) = some (st', none, r) →
      st' = (if r then 0 else 1)) ∧
    (GameSt.loopStep
        ⟨(((mkBoard 6 false).add_ship (mkShip ⟨0, 0⟩ 2 0)).1).begin,
         (((mkBoard 6 false).add_ship (mkShip ⟨0, 0⟩ 2 0)).1).begin, 0⟩
        [⟨0, 0⟩]).map (fun t => (t.1.num, t.2.1, t.2.2)) = some (0, none, true) := by
  constructor
  · intro st' r h
    rcases hstep : GameSt.loopStep
        ⟨(((mkBoard 6 false).add_ship (mkShip ⟨0, 0⟩ 2 0)).1).begin,
         (((mkBoard 6 false).add_ship (mkShip ⟨0, 0⟩ 2 0)).1).begin, 0⟩
        [⟨0, 0⟩] with _ | t
    · rw [hstep] at h
      exact absurd h (by simp)
    · rw [hstep] at h
      simp only [Option.map] at h
      obtain ⟨g, w, rep⟩ := t
      rw [Option.some.injEq, Prod.mk.injEq, Prod.mk.injEq] at h
      obtain ⟨h1, h2, h3⟩ := h
      have hw : w = none := h2 ▸ rfl
      have := c7_turn_repeat _ [⟨0, 0⟩] g rep (by rw [hstep, hw])
      rw [← h1, ← h3]
      rw [this.1]
      rfl
  · decide

/-! ### Claim C4: lives accounting -/

/-- The number of cells of `s` already present in `shots`. -/
def countHits (s : Ship) (shots : List Point) : Nat :=
  (s.points.filter (fun q => decide (q ∈ shots))).length

theorem countHits_eq_countP (s : Ship) (shots : List Point) :
    countHits s shots = s.points.countP (fun q => decide (q ∈ shots)) := by
  unfold countHits
  rw [List.countP_eq_length_filter]

theorem countHits_append_miss (s : Ship) (shots : List Point) (p : Point)
    (hp : p ∉ s.points) : countHits s (shots ++ [p]) = countHits s shots := by
  rw [countHits_eq_countP, countHits_eq_countP]
  refine List.countP_congr ?_
  intro q hq
  rw [decide_eq_true_eq, decide_eq_true_eq, List.mem_append, List.mem_singleton]
  constructor
  · rintro (h | rfl)
    · exact h
    · exact absurd hq hp
  · exact Or.inl

theorem countP_append_hit_aux (shots : List Point) (p : Point) (hps : p ∉ shots) :
    ∀ l : List Point, l.Nodup → p ∈ l →
      l.countP (fun q => decide (q ∈ shots ++ [p])) =
        l.countP (fun q => decide (q ∈ shots)) + 1 := by
  intro l
  induction l with
  | nil =>
    intro _ hp
    exact absurd hp (List.not_mem_nil p)
  | cons a l ih =>
    intro hnd hp
    rw [List.nodup_cons] at hnd
    rw [List.countP_cons, List.countP_cons]
    by_cases hap : a = p
    · subst hap
      have h1 : decide (a ∈ shots ++ [a]) = true := by
        rw [decide_eq_true_eq, List.mem_append, List.mem_singleton]
        exact Or.inr rfl
      have h2 : decide (a ∈ shots) = false := by
        rw [decide_eq_false_iff_not]
        exact hps
      have h3 : l.countP (fun q => decide (q ∈ shots ++ [a])) =
          l.countP (fun q => decide (q ∈ shots)) := by
        refine List.countP_congr ?_
        intro q hq
        rw [decide_eq_true_eq, decide_eq_true_eq, List.mem_append, List.mem_singleton]
        constructor
        · rintro (h | rfl)
          · exact h
          · exact absurd hq hnd.1
        · exact Or.inl
      simp only [h1, h2, h3, Bool.false_eq_true, if_false, if_true, reduceIte]
    · have hpl : p ∈ l := by
        rcases List.mem_cons.mp hp with rfl | h
        · exact absurd rfl hap
        · exact h
      have hsame : decide (a ∈ shots ++ [p]) = decide (a ∈ shots) := by
        rw [decide_eq_decide, List.mem_append, List.mem_singleton]
        constructor
        · rintro (h | rfl)
          · exact h
          · exact absurd rfl hap
        · exact Or.inl
      simp only [hsame, ih hnd.2 hpl]
      omega

theorem countHits_append_hit (s : Ship) (shots : List Point) (p : Point)
    (hnd : s.points.Nodup) (hp : p ∈ s.points) (hps : p ∉ shots) :
    countHits s (shots ++ [p]) = countHits s shots + 1 := by
  rw [countHits_eq_countP, countHits_eq_countP]
  exact countP_append_hit_aux shots p hps s.points hnd hp

theorem countHits_le (s : Ship) (shots : List Point) :
    countHits s shots ≤ s.length := by
  unfold countHits
  rw [← points_length s]
  exact List.length_filter_le _ _

theorem countHits_lives (s : Ship) (shots : List Point) (v : Int) :
    countHits { s with lives := v } shots = countHits s shots := rfl

/-- The invariant relating each ship's lives to the shot history: ships
are pairwise cell-disjoint, each ship's cells are distinct, and each
ship's lives equal its length minus the number of its cells present in
`shots`.  This holds for every board produced by Setup and is preserved
by `Board.shot`. -/
def Board.Consistent (b : Board) : Prop :=
  b.ships.Pairwise (fun s t => ∀ p ∈ s.points, p ∉ t.points) ∧
  ∀ s ∈ b.ships, s.points.Nodup ∧
    s.lives = (s.length : Int) - (countHits s b.shots : Int)

instance (b : Board) : Decidable b.Consistent := by
  unfold Board.Consistent
  infer_instance

theorem pairwise_replace (R : Ship → Ship → Prop) (l1 l2 : List Ship) (s s' : Ship)
    (hiff : ∀ t, (R s t ↔ R s' t) ∧ (R t s ↔ R t s'))
    (h : List.Pairwise R (l1 ++ s :: l2)) : List.Pairwise R (l1 ++ s' :: l2) := by
  rw [List.pairwise_append] at h ⊢
  obtain ⟨h1, h2, h3⟩ := h
  rw [List.pairwise_cons] at h2 ⊢
  refine ⟨h1, ⟨fun t ht => (hiff t).1.mp (h2.1 t ht), h2.2⟩, ?_⟩
  intro a ha c hc
  rcases List.mem_cons.mp hc with rfl | hc'
  · exact (hiff a).2.mp (h3 a ha s (List.mem_cons_self s l2))
  · exact h3 a ha c (List.mem_cons_of_mem s hc')

theorem hit_eq_false_iff (s : Ship) (p : Point) : s.hit p = false ↔ p ∉ s.points := by
  rw [Ship.hit, decide_eq_false_iff_not]

theorem shot_preserves_consistent (b : Board) (p : Point) (hc : b.Consistent) :
    (b.shot p).1.Consistent := by
  by_cases hout : b.out p = true
  · rw [shot_out_eq b p hout]
    exact hc
  · have hout' : b.out p = false := Bool.eq_false_iff.mpr hout
    by_cases hmem : p ∈ b.shots
    · rw [shot_used_eq b p hout' hmem]
      exact hc
    · obtain ⟨hshots, hsize, hcases⟩ := shot_fresh b p hout' hmem
      rcases hcases with ⟨hnone, hships, -⟩ | ⟨ships', s', hscan, hships, -⟩
      · rw [hitScan_none] at hnone
        constructor
        · rw [hships]
          exact hc.1
        · intro s hs
          rw [hships] at hs
          obtain ⟨hnd, hlv⟩ := hc.2 s hs
          refine ⟨hnd, ?_⟩
          rw [hshots, countHits_append_miss s b.shots p
            ((hit_eq_false_iff s p).mp (hnone s hs))]
          exact hlv
      · obtain ⟨l1, s0, l2, hdecomp, hl1, hhit, hs', hl'⟩ :=
          hitScan_some p b.ships ships' s' hscan
        have hp0 : p ∈ s0.points := of_decide_eq_true hhit
        have hpts : s'.points = s0.points := by
          rw [hs']
          rfl
        have hs0mem : s0 ∈ b.ships := by
          rw [hdecomp]
          exact List.mem_append.mpr (Or.inr (List.mem_cons_self s0 l2))
        have hpair := hc.1
        rw [hdecomp] at hpair
        have hdisj2 : ∀ t ∈ l2, ∀ q ∈ s0.points, q ∉ t.points := by
          rw [List.pairwise_append, List.pairwise_cons] at hpair
          exact fun t ht q hq => hpair.2.1.1 t ht q hq
        constructor
        · rw [hships, hl']
          refine pairwise_replace _ l1 l2 s0 s' ?_ hpair
          intro t
          constructor
          · constructor
            · intro h q hq
              rw [hpts] at hq
              exact h q hq
            · intro h q hq
              rw [← hpts] at hq
              exact h q hq
          · constructor
            · intro h q hq
              rw [hpts]
              exact h q hq
            · intro h q hq
              rw [← hpts]
              exact h q hq
        · intro s hs
          rw [hships, hl'] at hs
          rw [List.mem_append, List.mem_cons] at hs
          rcases hs with hs1 | rfl | hs2
          · have hsmem : s ∈ b.ships := by
              rw [hdecomp]
              exact List.mem_append.mpr (Or.inl hs1)
            obtain ⟨hnd, hlv⟩ := hc.2 s hsmem
            refine ⟨hnd, ?_⟩
            rw [hshots, countHits_append_miss s b.shots p
              ((hit_eq_false_iff s p).mp (hl1 s hs1))]
            exact hlv
          · obtain ⟨hnd0, hlv0⟩ := hc.2 s0 hs0mem
            have hndS : Ship.points s |>.Nodup := by
              rw [hpts]
              exact hnd0
            refine ⟨hndS, ?_⟩
            have hcount : countHits s (b.shots ++ [p]) = countHits s0 b.shots + 1 := by
              rw [hs', countHits_lives]
              exact countHits_append_hit s0 b.shots p hnd0 hp0 hmem
            rw [hshots, hcount]
            have hlen : Ship.length s = s0.length := by
              rw [hs']
            have hlives : Ship.lives s = s0.lives - 1 := by
              rw [hs']
            rw [hlives, hlen, hlv0]
            push_cast
            ring
          · have hsmem : s ∈ b.ships := by
              rw [hdecomp]
              exact List.mem_append.mpr (Or.inr (List.mem_cons_of_mem s0 hs2))
            obtain ⟨hnd, hlv⟩ := hc.2 s hsmem
            refine ⟨hnd, ?_⟩
            rw [hshots, countHits_append_miss s b.shots p
              (fun hps => hdisj2 s hs2 p hp0 hps)]
            exact hlv

theorem runShots_preserves_consistent (ps : List Point) :
    ∀ b : Board, b.Consistent → (runShots b ps).Consistent := by
  induction ps with
  | nil => intro b hc; exact hc
  | cons p ps ih =>
    intro b hc
    rw [runShots]
    exact ih _ (shot_preserves_consistent b p hc)

theorem consistent_lives_nonneg (b : Board) (hc : b.Consistent) :
    ∀ s ∈ b.ships, 0 ≤ s.lives := by
  intro s hs
  obtain ⟨-, hlv⟩ := hc.2 s hs
  have hle := countHits_le s b.shots
  omega

theorem shot_lives_decrement (b : Board) (p : Point) (hc : b.Consistent)
    (hout : b.out p = false) (hfresh : p ∉ b.shots) :
    (b.shot p).1.ships.length = b.ships.length ∧
    ∀ (i : Nat) (h : i < b.ships.length) (h' : i < (b.shot p).1.ships.length),
      ((b.shot p).1.ships[i]).points = (b.ships[i]).points ∧
      ((b.shot p).1.ships[i]).lives =
        (b.ships[i]).lives - (if p ∈ (b.ships[i]).points then 1 else 0) := by
  obtain ⟨hshots, hsize, hcases⟩ := shot_fresh b p hout hfresh
  rcases hcases with ⟨hnone, hships, -⟩ | ⟨ships', s', hscan, hships, -⟩
  · rw [hitScan_none] at hnone
    rw [hships]
    refine ⟨rfl, ?_⟩
    intro i h h'
    refine ⟨rfl, ?_⟩
    rw [if_neg ((hit_eq_false_iff _ p).mp (hnone _ (List.getElem_mem h)))]
    omega
  · obtain ⟨l1, s0, l2, hdecomp, hl1, hhit, hs', hl'⟩ :=
      hitScan_some p b.ships ships' s' hscan
    have hp0 : p ∈ s0.points := of_decide_eq_true hhit
    have hpair := hc.1
    rw [hdecomp] at hpair
    have hdisj2 : ∀ t ∈ l2, ∀ q ∈ s0.points, q ∉ t.points := by
      rw [List.pairwise_append, List.pairwise_cons] at hpair
      exact fun t ht q hq => hpair.2.1.1 t ht q hq
    rw [hships, hl', hdecomp]
    have hlen : (l1 ++ s' :: l2).length = (l1 ++ s0 :: l2).length := by
      rw [List.length_append, List.length_append, List.length_cons, List.length_cons]
    refine ⟨hlen, ?_⟩
    intro i h h'
    rcases Nat.lt_trichotomy i l1.length with hi | hi | hi
    · rw [List.getElem_append_left hi, List.getElem_append_left hi]
      refine ⟨rfl, ?_⟩
      rw [if_neg ((hit_eq_false_iff _ p).mp (hl1 _ (List.getElem_mem hi)))]
      omega
    · have hle : l1.length ≤ i := Nat.le_of_eq hi.symm
      rw [List.getElem_append_right hle, List.getElem_append_right hle]
      have h0 : i - l1.length = 0 := by omega
      simp only [h0, List.getElem_cons_zero]
      refine ⟨by rw [hs']; rfl, ?_⟩
      rw [if_pos hp0, hs']
    · have hle : l1.length ≤ i := Nat.le_of_lt hi
      rw [List.getElem_append_right hle, List.getElem_append_right hle]
      obtain ⟨j, hj⟩ : ∃ j, i - l1.length = j + 1 := ⟨i - l1.length - 1, by omega⟩
      simp only [hj, List.getElem_cons_succ]
      refine ⟨trivial, ?_⟩
      have hjlt : j < l2.length := by
        rw [List.length_append, List.length_cons] at h
        omega
      have hmem2 : l2[j] ∈ l2 := List.getElem_mem hjlt
      rw [if_neg (fun hps => hdisj2 _ hmem2 p hp0 hps)]
      omega

/-- Claim C4: a vessel's lives are initialized to its length; a
`Board.shot` at a fresh in-bounds coordinate decrements the lives of
exactly the ships whose cells contain it, by exactly 1 (and of no other
ship); and across any sequence of `Board.shot` calls from a consistent
board — consistency holds for every board Setup produces — each ship's
lives stay equal to its length minus the number of its cells among the
distinct targeted coordinates, and in particular never go negative. -/
theorem c4_lives_spec :
    (∀ (bow : Point) (l d : Nat), (mkShip bow l d).lives = (l : Int)) ∧
    (∀ (b : Board) (p : Point), b.Consistent → b.out p = false → p ∉ b.shots →
      (b.shot p).1.ships.length = b.ships.length ∧
      ∀ (i : Nat) (h : i < b.ships.length) (h' : i < (b.shot p).1.ships.length),
        ((b.shot p).1.ships[i]).lives =
          (b.ships[i]).lives - (if p ∈ (b.ships[i]).points then 1 else 0)) ∧
    (∀ (b : Board) (ps : List Point), b.Consistent →
      (runShots b ps).Consistent ∧
      ∀ s ∈ (runShots b ps).ships,
        0 ≤ s.lives ∧
        s.lives = (s.length : Int) - (countHits s (runShots b ps).shots : Int)) := by
  refine ⟨fun bow l d => rfl, ?_, ?_⟩
  · intro b p hc hout hfresh
    obtain ⟨hlen, hstep⟩ := shot_lives_decrement b p hc hout hfresh
    exact ⟨hlen, fun i h h' => (hstep i h h').2⟩
  · intro b ps hc
    have hc' := runShots_preserves_consistent ps b hc
    refine ⟨hc', ?_⟩
    intro s hs
    exact ⟨consistent_lives_nonneg _ hc' s hs, (hc'.2 s hs).2⟩

/-- The 6×6 board with a single length-2 ship at (0,0), ready for play. -/
def c4Board : Board := (((mkBoard 6 false).add_ship (mkShip ⟨0, 0⟩ 2 0)).1).begin

/-- Witness for C4 at a concrete board: the initial lives of a freshly
constructed ship equal its length, shooting the consistent two-cell board
keeps the ship count, and two hits drive the invariant forward. -/
theorem c4_lives_spec_witness :
    (mkShip ⟨0, 0⟩ 2 0).lives = 2 ∧
    (c4Board.shot ⟨0, 0⟩).1.ships.length = c4Board.ships.length ∧
    (runShots c4Board [⟨0, 0⟩, ⟨0, 1⟩]).Consistent := by
  obtain ⟨h1, h2, h3⟩ := c4_lives_spec
  exact ⟨h1 ⟨0, 0⟩ 2 0,
         (h2 c4Board ⟨0, 0⟩ (by decide) (by decide) (by decide)).1,
         (h3 c4Board [⟨0, 0⟩, ⟨0, 1⟩] (by decide)).1⟩

/-! ### Claims C3 and C8: the Setup invariant -/

/-- The invariant maintained while `Game.try_board` places the fleet:
every placed ship has a 0/1 direction, full lives, and in-bounds cells;
every in-bounds cell adjacent (Chebyshev distance at most 1) to a placed
ship's cell is in `busy`; distinct placed ships have no adjacent (or
shared) cells; and nothing has been shot yet. -/
def PlacedOk (b : Board) : Prop :=
  (∀ s ∈ b.ships, (s.direction = 0 ∨ s.direction = 1) ∧
    s.lives = (s.length : Int) ∧ ∀ p ∈ s.points, b.out p = false) ∧
  (∀ s ∈ b.ships, ∀ p ∈ s.points, ∀ q : Point,
    adjacent q p → b.out q = false → q ∈ b.busy) ∧
  b.ships.Pairwise (fun s t => ∀ p ∈ s.points, ∀ q ∈ t.points, ¬ adjacent p q) ∧
  b.shots = []

theorem placedOk_mkBoard (size : Nat) (hidden : Bool) : PlacedOk (mkBoard size hidden) := by
  refine ⟨?_, ?_, List.Pairwise.nil, rfl⟩
  · intro s hs
    exact absurd hs (List.not_mem_nil s)
  · intro s hs
    exact absurd hs (List.not_mem_nil s)

theorem placedOk_add_ship (b : Board) (s : Ship) (b' : Board) (u : Unit)
    (h : b.add_ship s = (b', Except.ok u))
    (hok : PlacedOk b) (hdir : s.direction = 0 ∨ s.direction = 1)
    (hlives : s.lives = (s.length : Int)) :
    PlacedOk b' ∧ b'.ships = b.ships ++ [s] ∧ b'.size = b.size := by
  obtain ⟨hchecks, hships, hsize, hshots, hmono, hpts, hcover⟩ := add_ship_ok b s b' u h
  obtain ⟨ho1, ho2, ho3, ho4⟩ := hok
  have houtc : ∀ q : Point, b'.out q = b.out q := out_congr hsize
  refine ⟨⟨?_, ?_, ?_, ?_⟩, hships, hsize⟩
  · intro t ht
    rw [hships, List.mem_append, List.mem_singleton] at ht
    rcases ht with ht | rfl
    · obtain ⟨hd, hl, hb⟩ := ho1 t ht
      exact ⟨hd, hl, fun p hp => by rw [houtc p]; exact hb p hp⟩
    · exact ⟨hdir, hlives, fun p hp => by rw [houtc p]; exact (hchecks p hp).1⟩
  · intro t ht p hp q hadj hqout
    rw [hships, List.mem_append, List.mem_singleton] at ht
    rw [houtc q] at hqout
    rcases ht with ht | rfl
    · exact hmono q (ho2 t ht p hp q hadj hqout)
    · exact hcover p hp q hadj hqout
  · rw [hships, List.pairwise_append]
    refine ⟨ho3, List.pairwise_singleton _ s, ?_⟩
    intro t ht c hc
    rw [List.mem_singleton] at hc
    subst hc
    intro p hp q hq hadj
    have hqb : q ∈ b.busy :=
      ho2 t ht p hp q (adjacent_symm hadj) ((hchecks q hq).1)
    exact (hchecks q hq).2 hqb
  · rw [hshots]
    exact ho4

theorem placeLoop_ok (stream : DrawStream) (l : Nat) :
    ∀ (gas : Nat) (b : Board) (a : Nat) (b' : Board) (a' : Nat),
      placeLoop stream l gas b a = some (b', a') → PlacedOk b →
      PlacedOk b' ∧ b'.ships.map Ship.length = b.ships.map Ship.length ++ [l] ∧
      b'.size = b.size ∧ a < a' ∧ a' ≤ 2000 := by
  intro gas
  induction gas with
  | zero =>
    intro b a b' a' h
    exact absurd h (by rw [placeLoop]; simp)
  | succ gas ih =>
    intro b a b' a' h hok
    rw [placeLoop] at h
    by_cases hcut : 2000 < a + 1
    · rw [if_pos hcut] at h
      exact absurd h (by simp)
    · rw [if_neg hcut] at h
      rcases hadd : b.add_ship (mkShip (stream (a + 1)).1 l ((stream (a + 1)).2 : Nat))
        with ⟨b2, r⟩
      simp only [hadd] at h
      rcases r with e | v
      · have hb2 : b2 = b := by
          have h1 : (b.add_ship (mkShip (stream (a + 1)).1 l
              ((stream (a + 1)).2 : Nat))).2 = Except.error e := by
            rw [hadd]
          have h2 := add_ship_error_unchanged _ _ _ h1
          rw [hadd] at h2
          exact h2
        rw [hb2] at h
        obtain ⟨g1, g2, g3, g4, g5⟩ := ih b (a + 1) b' a' h hok
        exact ⟨g1, g2, g3, by omega, g5⟩
      · rw [Option.some.injEq, Prod.mk.injEq] at h
        obtain ⟨rfl, rfl⟩ := h
        have hdir : (mkShip (stream (a + 1)).1 l ((stream (a + 1)).2 : Nat)).direction = 0 ∨
            (mkShip (stream (a + 1)).1 l ((stream (a + 1)).2 : Nat)).direction = 1 := by
          have := ((stream (a + 1)).2).isLt
          show ((stream (a + 1)).2 : Nat) = 0 ∨ ((stream (a + 1)).2 : Nat) = 1
          omega
        obtain ⟨g1, g2, g3⟩ := placedOk_add_ship b _ b2 v hadd hok hdir rfl
        refine ⟨g1, ?_, g3, by omega, by omega⟩
        rw [g2, List.map_append]
        rfl

theorem fleetLoop_ok (stream : DrawStream) :
    ∀ (ls : List Nat) (b : Board) (a : Nat) (b' : Board) (a' : Nat),
      fleetLoop stream ls b a = some (b', a') → PlacedOk b → a ≤ 2000 →
      PlacedOk b' ∧ b'.ships.map Ship.length = b.ships.map Ship.length ++ ls ∧
      b'.size = b.size ∧ a ≤ a' ∧ a' ≤ 2000 := by
  intro ls
  induction ls with
  | nil =>
    intro b a b' a' h hok ha
    rw [fleetLoop, Option.some.injEq, Prod.mk.injEq] at h
    obtain ⟨rfl, rfl⟩ := h
    exact ⟨hok, (List.append_nil _).symm, rfl, Nat.le_refl a, ha⟩
  | cons l ls ih =>
    intro b a b' a' h hok ha
    rw [fleetLoop] at h
    rcases hpl : placeLoop stream l 2001 b a with _ | pr
    · rw [hpl] at h
      exact absurd h (by simp)
    · obtain ⟨b2, a2⟩ := pr
      rw [hpl] at h
      obtain ⟨g1, g2, g3, g4, g5⟩ := placeLoop_ok stream l 2001 b a b2 a2 hpl hok
      obtain ⟨k1, k2, k3, k4, k5⟩ := ih b2 a2 b' a' h g1 g5
      refine ⟨k1, ?_, k3.trans g3, by omega, k5⟩
      rw [k2, g2, List.append_assoc, List.singleton_append]

theorem begin_fields (b : Board) :
    b.begin.ships = b.ships ∧ b.begin.shots = b.shots ∧ b.begin.size = b.size :=
  ⟨rfl, rfl, rfl⟩

theorem tryBoard_ships (size : Nat) (stream : DrawStream) (b : Board)
    (h : tryBoard size stream = some b) :
    b.ships.map Ship.length = lens ∧
    (∀ s ∈ b.ships, (s.direction = 0 ∨ s.direction = 1) ∧
      s.lives = (s.length : Int) ∧ ∀ p ∈ s.points, b.out p = false) ∧
    b.ships.Pairwise (fun s t => ∀ p ∈ s.points, ∀ q ∈ t.points, ¬ adjacent p q) ∧
    b.shots = [] := by
  unfold tryBoard at h
  rcases hfl : fleetLoop stream lens (mkBoard size false) 0 with _ | pr
  · rw [hfl] at h
    exact absurd h (by simp)
  · obtain ⟨b0, a0⟩ := pr
    rw [hfl, Option.some.injEq] at h
    obtain ⟨g1, g2, -, -, -⟩ := fleetLoop_ok stream lens (mkBoard size false) 0 b0 a0 hfl
      (placedOk_mkBoard size false) (by omega)
    obtain ⟨k1, k2, k3⟩ := begin_fields b0
    have hb : b = b0.begin := h.symm
    have hships : b.ships = b0.ships := by rw [hb, k1]
    have houtc : ∀ q : Point, b.out q = b0.out q := by
      intro q
      refine out_congr ?_ q
      rw [hb, k3]
    obtain ⟨p1, -, p3, p4⟩ := g1
    refine ⟨?_, ?_, ?_, ?_⟩
    · rw [hships, g2]
      rfl
    · intro s hs
      rw [hships] at hs
      obtain ⟨hd, hl, hbnd⟩ := p1 s hs
      exact ⟨hd, hl, fun p hp => by rw [houtc p]; exact hbnd p hp⟩
    · rw [hships]
      exact p3
    · rw [hb, k2, p4]

theorem nonadjacent_disjoint (s t : Ship)
    (h : ∀ p ∈ s.points, ∀ q ∈ t.points, ¬ adjacent p q) :
    ∀ p ∈ s.points, p ∉ t.points := by
  intro p hp hpt
  exact h p hp p hpt (adjacent_refl p)

theorem countHits_nil (s : Ship) : countHits s [] = 0 := by
  unfold countHits
  rw [List.filter_eq_nil_iff.mpr]
  · rfl
  · intro q _
    rw [decide_eq_true_eq]
    exact List.not_mem_nil q

/-- Every board produced by a completed `Game.try_board` pass satisfies
the play-time consistency invariant: disjoint distinct ship cells and
lives equal to length minus the (empty) shot history. -/
theorem tryBoard_consistent (size : Nat) (stream : DrawStream) (b : Board)
    (h : tryBoard size stream = some b) : b.Consistent := by
  obtain ⟨-, h2, h3, h4⟩ := tryBoard_ships size stream b h
  constructor
  · exact h3.imp (fun hst => nonadjacent_disjoint _ _ hst)
  · intro s hs
    obtain ⟨hd, hl, -⟩ := h2 s hs
    refine ⟨points_nodup s hd, ?_⟩
    rw [h4, countHits_nil]
    omega

/-- Claim C3 (amended): every grid returned by a completed
`Game.try_board` on the 6×6 board carries the fixed fleet
`[3,2,2,1,1,1,1]`: the ships' cells number exactly 11 in total (the
lengths sum to 11, not 10) and are pairwise distinct, and no two distinct
ships have equal or adjacent (including diagonally) cells. -/
theorem c3_fleet_spec (stream : DrawStream) (b : Board)
    (h : tryBoard 6 stream = some b) :
    (b.ships.map (fun s => s.points.length)).sum = 11 ∧
    b.ships.Pairwise (fun s t => ∀ p ∈ s.points, ∀ q ∈ t.points, ¬ adjacent p q) ∧
    (b.ships.map Ship.points).flatten.Nodup := by
  obtain ⟨h1, h2, h3, -⟩ := tryBoard_ships 6 stream b h
  refine ⟨?_, h3, ?_⟩
  · have hmap : b.ships.map (fun s => s.points.length) = b.ships.map Ship.length := by
      refine List.map_congr_left ?_
      intro s _
      exact points_length s
    rw [hmap, h1]
    decide
  · rw [List.nodup_flatten]
    constructor
    · intro l hl
      rw [List.mem_map] at hl
      obtain ⟨s, hs, rfl⟩ := hl
      exact points_nodup s (h2 s hs).1
    · rw [List.pairwise_map]
      refine h3.imp ?_
      intro s t hst x hxs hxt
      exact hst x hxs x hxt (adjacent_refl x)

/-- A concrete draw stream whose first seven draws place the whole fleet
without a single retry. -/
def streamC : DrawStream := fun a =>
  match a with
  | 1 => (⟨0, 0⟩, 0)
  | 2 => (⟨0, 4⟩, 0)
  | 3 => (⟨2, 0⟩, 0)
  | 4 => (⟨2, 3⟩, 0)
  | 5 => (⟨2, 5⟩, 0)
  | 6 => (⟨4, 0⟩, 0)
  | _ => (⟨4, 2⟩, 0)

/-- Counterexample to C3 as stated: on the concrete stream `streamC`,
`try_board` completes and the ships' occupied cells number 11, not 10 —
`[3,2,2,1,1,1,1]` sums to 11. -/
theorem c3_counterexample :
    ∃ b, tryBoard 6 streamC = some b ∧
      (b.ships.map (fun s => s.points.length)).sum ≠ 10 ∧
      (b.ships.map (fun s => s.points.length)).sum = 11 := by
  have hs : (tryBoard 6 streamC).isSome = true := rfl
  have heq : tryBoard 6 streamC = some ((tryBoard 6 streamC).get hs) :=
    (Option.some_get hs).symm
  obtain ⟨h1, -, -, -⟩ := tryBoard_ships 6 streamC _ heq
  have hmap : (((tryBoard 6 streamC).get hs).ships.map
      (fun s => s.points.length)).sum = 11 := by
    have hcongr : ((tryBoard 6 streamC).get hs).ships.map (fun s => s.points.length) =
        ((tryBoard 6 streamC).get hs).ships.map Ship.length :=
      List.map_congr_left fun s _ => points_length s
    rw [hcongr, h1]
    decide
  exact ⟨_, heq, by rw [hmap]; decide, hmap⟩

/-- Witness for the amended C3: `try_board` succeeds on the concrete
stream `streamC` and the resulting fleet satisfies the amended
invariants. -/
theorem c3_fleet_spec_witness :
    ∃ b, tryBoard 6 streamC = some b ∧
      ((b.ships.map (fun s => s.points.length)).sum = 11 ∧
       b.ships.Pairwise (fun s t => ∀ p ∈ s.points, ∀ q ∈ t.points, ¬ adjacent p q) ∧
       (b.ships.map Ship.points).flatten.Nodup) := by
  have hs : (tryBoard 6 streamC).isSome = true := rfl
  exact ⟨(tryBoard 6 streamC).get hs, (Option.some_get hs).symm,
    c3_fleet_spec streamC _ (Option.some_get hs).symm⟩

/-! ### Claim C8: the 2000-attempt budget -/

theorem placeLoop_abandon (stream : DrawStream) (l gas : Nat) (b : Board) (a : Nat)
    (ha : 2000 ≤ a) : placeLoop stream l gas b a = none := by
  cases gas with
  | zero => rfl
  | succ g =>
    rw [placeLoop]
    rw [if_pos (by omega)]

theorem placeLoop_bound (stream : DrawStream) (l : Nat) :
    ∀ (gas : Nat) (b : Board) (a : Nat) (b' : Board) (a' : Nat),
      placeLoop stream l gas b a = some (b', a') → a < a' ∧ a' ≤ 2000 := by
  intro gas
  induction gas with
  | zero =>
    intro b a b' a' h
    exact absurd h (by rw [placeLoop]; simp)
  | succ gas ih =>
    intro b a b' a' h
    rw [placeLoop] at h
    by_cases hcut : 2000 < a + 1
    · rw [if_pos hcut] at h
      exact absurd h (by simp)
    · rw [if_neg hcut] at h
      rcases hadd : b.add_ship (mkShip (stream (a + 1)).1 l ((stream (a + 1)).2 : Nat))
        with ⟨b2, r⟩
      simp only [hadd] at h
      rcases r with e | v
      · obtain ⟨g1, g2⟩ := ih b2 (a + 1) b' a' h
        exact ⟨by omega, g2⟩
      · rw [Option.some.injEq, Prod.mk.injEq] at h
        obtain ⟨rfl, rfl⟩ := h
        exact ⟨by omega, by omega⟩

theorem fleetLoop_bound (stream : DrawStream) :
    ∀ (ls : List Nat) (b : Board) (a : Nat) (b' : Board) (a' : Nat),
      fleetLoop stream ls b a = some (b', a') → a ≤ 2000 → a ≤ a' ∧ a' ≤ 2000 := by
  intro ls
  induction ls with
  | nil =>
    intro b a b' a' h ha
    rw [fleetLoop, Option.some.injEq, Prod.mk.injEq] at h
    obtain ⟨rfl, rfl⟩ := h
    exact ⟨Nat.le_refl a, ha⟩
  | cons l ls ih =>
    intro b a b' a' h ha
    rw [fleetLoop] at h
    rcases hpl : placeLoop stream l 2001 b a with _ | pr
    · rw [hpl] at h
      exact absurd h (by simp)
    · obtain ⟨b2, a2⟩ := pr
      rw [hpl] at h
      obtain ⟨g1, g2⟩ := placeLoop_bound stream l 2001 b a b2 a2 hpl
      obtain ⟨k1, k2⟩ := ih b2 a2 b' a' h g2
      exact ⟨by omega, k2⟩

theorem placeLoop_congr (s1 s2 : DrawStream) (l : Nat)
    (hag : ∀ k, k ≤ 2000 → s1 k = s2 k) :
    ∀ (gas : Nat) (b : Board) (a : Nat),
      placeLoop s1 l gas b a = placeLoop s2 l gas b a := by
  intro gas
  induction gas with
  | zero =>
    intro b a
    rfl
  | succ gas ih =>
    intro b a
    rw [placeLoop, placeLoop]
    by_cases hcut : 2000 < a + 1
    · rw [if_pos hcut, if_pos hcut]
    · rw [if_neg hcut, if_neg hcut, hag (a + 1) (by omega)]
      rcases hadd : b.add_ship (mkShip (s2 (a + 1)).1 l ((s2 (a + 1)).2 : Nat))
        with ⟨b2, r⟩
      simp only [hadd]
      rcases r with e | v
      · exact ih b2 (a + 1)
      · rfl

theorem fleetLoop_congr (s1 s2 : DrawStream)
    (hag : ∀ k, k ≤ 2000 → s1 k = s2 k) :
    ∀ (ls : List Nat) (b : Board) (a : Nat),
      fleetLoop s1 ls b a = fleetLoop s2 ls b a := by
  intro ls
  induction ls with
  | nil =>
    intro b a
    rfl
  | cons l ls ih =>
    intro b a
    rw [fleetLoop, fleetLoop, placeLoop_congr s1 s2 l hag 2001 b a]
    rcases hpl : placeLoop s2 l 2001 b a with _ | pr
    · rfl
    · obtain ⟨b2, a2⟩ := pr
      simp only []
      exact ih b2 a2

/-- Claim C8: the placement loop of `Game.try_board` abandons the board
(returns `None`) whenever the shared attempt counter has passed 2000; a
successful construction pass finishes with at most 2000 attempts used
across the whole fleet; the result of `try_board` depends only on the
first 2000 draws of the random stream (so `try_board` always terminates
after at most 2000 draws); and when `try_board` fails,
`Game.random_board` restarts construction from scratch on the next
stream. -/
theorem c8_attempts_spec :
    (∀ (stream : DrawStream) (l gas : Nat) (b : Board) (a : Nat), 2000 ≤ a →
      placeLoop stream l gas b a = none) ∧
    (∀ (stream : DrawStream) (b' : Board) (a' : Nat),
      fleetLoop stream lens (mkBoard 6 false) 0 = some (b', a') → a' ≤ 2000) ∧
    (∀ s1 s2 : DrawStream, (∀ k, k ≤ 2000 → s1 k = s2 k) →
      tryBoard 6 s1 = tryBoard 6 s2) ∧
    (∀ (size : Nat) (s : DrawStream) (rest : List DrawStream),
      tryBoard size s = none →
      randomBoard size (s :: rest) = randomBoard size rest) := by
  refine ⟨placeLoop_abandon, ?_, ?_, ?_⟩
  · intro stream b' a' h
    exact (fleetLoop_bound stream lens (mkBoard 6 false) 0 b' a' h (by omega)).2
  · intro s1 s2 hag
    unfold tryBoard
    rw [fleetLoop_congr s1 s2 hag lens (mkBoard 6 false) 0]
  · intro size s rest h
    rw [randomBoard]
    simp only [h]

/-- A draw stream that keeps proposing the same bow, so the second ship
always conflicts with the first and the attempt budget runs out. -/
def badStream : DrawStream := fun _ => (⟨0, 0⟩, 0)

set_option maxRecDepth 100000 in
/-- Witness for C8: the placement loop at an exhausted counter returns
`None`; the concrete successful pass on `streamC` used at most 2000
attempts; stream agreement is reflexive on `streamC`; and on the
always-conflicting `badStream`, `try_board` fails and `random_board`
moves on to the next stream. -/
theorem c8_attempts_spec_witness :
    placeLoop streamC 3 2001 (mkBoard 6 false) 2000 = none ∧
    (∀ hs : (fleetLoop streamC lens (mkBoard 6 false) 0).isSome = true,
      ((fleetLoop streamC lens (mkBoard 6 false) 0).get hs).2 ≤ 2000) ∧
    tryBoard 6 streamC = tryBoard 6 streamC ∧
    randomBoard 6 [badStream, streamC] = randomBoard 6 [streamC] := by
  obtain ⟨h1, h2, h3, h4⟩ := c8_attempts_spec
  refine ⟨h1 streamC 3 2001 (mkBoard 6 false) 2000 (by omega), ?_, ?_, ?_⟩
  · intro hs
    exact h2 streamC ((fleetLoop streamC lens (mkBoard 6 false) 0).get hs).1
      ((fleetLoop streamC lens (mkBoard 6 false) 0).get hs).2
      (Option.some_get hs).symm
  · exact h3 streamC streamC (fun k _ => rfl)
  · exact h4 6 badStream [streamC] (by rfl)
